import Mathlib

/-!
# Verification of the medical-image codec core

A shallow embedding of the codec's Python sources (`bitstream.py`,
`dct_transform.py`, `huffman_coding.py`, `decode.py`, `encode.py`,
`utils.py`) together with proofs about the embedded definitions.

Modelling conventions:
* a byte sequence is a `List ℕ` whose entries are `< 256`;
* a bit string (Python strings of `'0'`/`'1'`) is a `List Bool`
  (`true` = `'1'`), most-significant bit first;
* Python operations that can raise (`data[i]` indexing, `struct.unpack`
  on a short slice, `np.reshape` with mismatched sizes, dict lookup,
  `int.to_bytes` overflow, `bytearray.append` of a value ≥ 256) are
  embedded as `Option`-returning functions; Python slicing, which
  silently truncates, is embedded as truncating `take`/`drop`;
* machine integers are `ℕ`/`ℤ` with explicit reduction modulo `2^w`
  where the code narrows a value (`astype(np.int16)`);
* `numpy` floating point enters only in the DCT/IDCT stage; those two
  stages are abstracted as explicitly quantified parameters producing
  rational matrices, so every theorem below holds for all possible
  outputs of those stages.
-/

namespace Codec

/-! ## Bits and bytes -/

/-- `int(code, 2)` on a bit string, MSB first. -/
def bitsToNat (l : List Bool) : ℕ :=
  l.foldl (fun a b => 2 * a + (if b then 1 else 0)) 0

/-- MSB-first bits of `v` with a fixed width `w` (Python `format(v, '0wb')`
restricted to `v < 2^w`). -/
def widthBits : ℕ → ℕ → List Bool
  | 0, _ => []
  | w + 1, v => widthBits w (v / 2) ++ [decide (v % 2 = 1)]

/-- Minimal MSB-first binary digits of `v`; empty for `v = 0`
(helper for Python `bin(v)[2:]`). -/
def natBitsAux (v : ℕ) : List Bool :=
  if h : v = 0 then []
  else natBitsAux (v / 2) ++ [decide (v % 2 = 1)]
  decreasing_by exact Nat.div_lt_self (Nat.pos_of_ne_zero h) (by omega)

/-- Python `bin(v)[2:]`: minimal binary digits, `"0"` for zero. -/
def natBits (v : ℕ) : List Bool :=
  if v = 0 then [false] else natBitsAux v

/-- Python `str.zfill` on a bit string: left-pad with `'0'` up to
width `w`; never truncates. -/
def zfillBits (w : ℕ) (l : List Bool) : List Bool :=
  List.replicate (w - l.length) false ++ l

/-- Big-endian base-256 digits of `v`, width `n`
(Python `v.to_bytes(n, 'big')` for `v < 256^n`). -/
def natToBytesBE : ℕ → ℕ → List ℕ
  | 0, _ => []
  | n + 1, v => natToBytesBE n (v / 256) ++ [v % 256]

/-- Python `int.from_bytes(l, 'big')`. -/
def bytesToNatBE (l : List ℕ) : ℕ :=
  l.foldl (fun a b => 256 * a + b) 0

/-- Python `int.from_bytes(l, 'big', signed=True)`. -/
def bytesToIntBE (l : List ℕ) : ℤ :=
  let v := bytesToNatBE l
  if 2 * v < 256 ^ l.length then (v : ℤ) else (v : ℤ) - 256 ^ l.length

/-- Two-byte big-endian encoding (`struct.pack('>H', n)` for `n < 2^16`). -/
def u16be (n : ℕ) : List ℕ := natToBytesBE 2 n

/-- Four-byte big-endian encoding (`struct.pack('>I', n)` for `n < 2^32`). -/
def u32be (n : ℕ) : List ℕ := natToBytesBE 4 n

/-- Python `data[off]`: raises `IndexError` when out of range. -/
def readU8 (d : List ℕ) (off : ℕ) : Option ℕ := d.get? off

/-- `struct.unpack('>H', data[off:off+2])`: `struct.error` unless two
bytes are available. -/
def readU16 (d : List ℕ) (off : ℕ) : Option ℕ :=
  if off + 2 ≤ d.length then some (256 * d.getD off 0 + d.getD (off + 1) 0)
  else none

/-- `struct.unpack('>I', data[off:off+4])`: `struct.error` unless four
bytes are available. -/
def readU32 (d : List ℕ) (off : ℕ) : Option ℕ :=
  if off + 4 ≤ d.length then
    some (256 ^ 3 * d.getD off 0 + 256 ^ 2 * d.getD (off + 1) 0 +
          256 * d.getD (off + 2) 0 + d.getD (off + 3) 0)
  else none

/-- Python slicing `data[off:off+n]`: silently truncates, never raises. -/
def sliceBytes (d : List ℕ) (off n : ℕ) : List ℕ := (d.drop off).take n

/-! ### Elementary lemmas about the byte readers -/

theorem bitsToNat_foldl (l : List Bool) (a : ℕ) :
    l.foldl (fun a b => 2 * a + (if b then 1 else 0)) a
      = a * 2 ^ l.length + bitsToNat l := by
  induction l generalizing a with
  | nil => simp [bitsToNat]
  | cons x xs ih =>
    simp only [bitsToNat, List.foldl_cons, List.length_cons]
    rw [ih, ih]
    ring

theorem bitsToNat_append (a b : List Bool) :
    bitsToNat (a ++ b) = bitsToNat a * 2 ^ b.length + bitsToNat b := by
  show (a ++ b).foldl _ 0 = _
  rw [List.foldl_append, bitsToNat_foldl]
  rfl

theorem bitsToNat_lt (l : List Bool) : bitsToNat l < 2 ^ l.length := by
  induction l with
  | nil => simp [bitsToNat]
  | cons x xs ih =>
    have h : bitsToNat (x :: xs) = bitsToNat [x] * 2 ^ xs.length + bitsToNat xs :=
      bitsToNat_append [x] xs
    have hx : bitsToNat [x] ≤ 1 := by cases x <;> simp [bitsToNat]
    simp only [List.length_cons, pow_succ]
    have := Nat.pos_pow_of_pos xs.length (show 0 < 2 by omega)
    nlinarith

theorem bytesToNatBE_foldl (l : List ℕ) (a : ℕ) :
    l.foldl (fun a b => 256 * a + b) a = a * 256 ^ l.length + bytesToNatBE l := by
  induction l generalizing a with
  | nil => simp [bytesToNatBE]
  | cons x xs ih =>
    simp only [bytesToNatBE, List.foldl_cons, List.length_cons]
    rw [ih, ih]
    ring

theorem bytesToNatBE_append (a b : List ℕ) :
    bytesToNatBE (a ++ b) = bytesToNatBE a * 256 ^ b.length + bytesToNatBE b := by
  show (a ++ b).foldl _ 0 = _
  rw [List.foldl_append, bytesToNatBE_foldl]
  rfl

theorem bitsToNat_replicate_false (k : ℕ) :
    bitsToNat (List.replicate k false) = 0 := by
  induction k with
  | zero => rfl
  | succ m ih =>
    rw [List.replicate_succ', bitsToNat_append, ih]
    rfl

theorem bitsToNat_pos_of_head_true (r : List Bool) :
    0 < bitsToNat (true :: r) := by
  have h : bitsToNat (true :: r) = bitsToNat [true] * 2 ^ r.length + bitsToNat r :=
    bitsToNat_append [true] r
  rw [show bitsToNat [true] = 1 from rfl, one_mul] at h
  have := Nat.pos_pow_of_pos r.length (show 0 < 2 by omega)
  omega

theorem natBitsAux_zero : natBitsAux 0 = [] := by
  rw [natBitsAux]
  simp

theorem natBitsAux_one : natBitsAux 1 = [true] := by
  rw [natBitsAux]
  norm_num [natBitsAux_zero]

theorem head?_dropWhile_false {α : Type} (p : α → Bool) (l : List α) (x : α)
    (h : (l.dropWhile p).head? = some x) : p x = false := by
  induction l with
  | nil => simp [List.dropWhile] at h
  | cons a l ih =>
    rw [List.dropWhile_cons] at h
    by_cases hp : p a = true
    · rw [if_pos hp] at h
      exact ih h
    · rw [if_neg hp] at h
      simp at h
      subst h
      simpa using hp

theorem widthBits_length (w v : ℕ) : (widthBits w v).length = w := by
  induction w generalizing v with
  | zero => simp [widthBits]
  | succ m ih => simp [widthBits, ih]

theorem widthBits_bitsToNat (l : List Bool) :
    widthBits l.length (bitsToNat l) = l := by
  induction l using List.reverseRecOn with
  | nil => rfl
  | append_singleton xs x ih =>
    have hv : bitsToNat (xs ++ [x]) = 2 * bitsToNat xs + (if x then 1 else 0) := by
      rw [bitsToNat_append]
      cases x <;> simp [bitsToNat] <;> ring
    rw [hv]
    simp only [List.length_append, List.length_cons, List.length_nil]
    rw [show xs.length + 1 = xs.length + 1 from rfl]
    show widthBits (xs.length + 1) _ = _
    rw [widthBits]
    have hdiv : (2 * bitsToNat xs + (if x then 1 else 0)) / 2 = bitsToNat xs := by
      cases x <;> simp <;> omega
    have hmod : decide ((2 * bitsToNat xs + (if x then 1 else 0)) % 2 = 1) = x := by
      cases x <;> simp <;> omega
    rw [hdiv, hmod, ih]

theorem natBitsAux_of_bitsToNat (c : List Bool) (hc : c.head? ≠ some false) :
    natBitsAux (bitsToNat c) = c := by
  induction c using List.reverseRecOn with
  | nil => exact natBitsAux_zero
  | append_singleton xs x ih =>
    have hv : bitsToNat (xs ++ [x]) = 2 * bitsToNat xs + (if x then 1 else 0) := by
      rw [bitsToNat_append]
      cases x <;> (simp [bitsToNat]; try ring)
    cases xs with
    | nil =>
      cases x with
      | false => simp at hc
      | true =>
        rw [show bitsToNat ([] ++ [true]) = 1 from rfl]
        exact natBitsAux_one
    | cons y ys =>
      have hy : y = true := by
        cases y
        · simp at hc
        · rfl
      subst hy
      have hpos : 0 < bitsToNat (true :: ys) := bitsToNat_pos_of_head_true ys
      have hne : bitsToNat ((true :: ys) ++ [x]) ≠ 0 := by
        rw [hv]
        cases x <;> simp <;> omega
      rw [natBitsAux, dif_neg hne, hv]
      have hdiv : (2 * bitsToNat (true :: ys) + (if x then 1 else 0)) / 2
          = bitsToNat (true :: ys) := by cases x <;> simp <;> omega
      have hmod : decide ((2 * bitsToNat (true :: ys) + (if x then 1 else 0)) % 2 = 1) = x := by
        cases x <;> simp <;> omega
      rw [hdiv, hmod, ih (by simp)]

/-- Core round trip of the Python idiom `bin(v)[2:].zfill(L)`:
re-padding the minimal binary form of `bitsToNat c` to the recorded
length restores the original bit string, leading zeros included. -/
theorem zfill_natBits_bitsToNat (c : List Bool) (hc : c ≠ []) :
    zfillBits c.length (natBits (bitsToNat c)) = c := by
  have hsplit : c.takeWhile (fun b => !b) ++ c.dropWhile (fun b => !b) = c :=
    List.takeWhile_append_dropWhile (fun b => !b) c
  set t := c.takeWhile (fun b => !b) with ht
  set d := c.dropWhile (fun b => !b) with hd
  have htrep : t = List.replicate t.length false := by
    apply List.eq_replicate_of_mem
    intro b hb
    have := List.mem_takeWhile_imp hb
    simpa using this
  have hbtn : bitsToNat c = bitsToNat d := by
    conv_lhs => rw [← hsplit]
    rw [htrep] at *
    rw [bitsToNat_append, bitsToNat_replicate_false]
    simp
  cases hdeq : d with
  | nil =>
    -- the whole string is zeros
    have hcall : c = List.replicate c.length false := by
      conv_lhs => rw [← hsplit, hdeq]
      rw [htrep]
      simp only [List.append_nil]
      have : t.length = c.length := by
        conv_rhs => rw [← hsplit, hdeq]
        simp
      rw [this]
    have hz : bitsToNat c = 0 := by
      rw [hcall, bitsToNat_replicate_false]
    rw [hz]
    show zfillBits c.length [false] = c
    unfold zfillBits
    conv_rhs => rw [hcall]
    have hlen : 1 ≤ c.length := by
      cases c
      · exact absurd rfl hc
      · simp
    rw [show c.length = (c.length - 1) + 1 by omega]
    rw [List.replicate_succ']
    simp
  | cons y ys =>
    have hy : y = true := by
      have hh : (c.dropWhile (fun b => !b)).head? = some y := by
        rw [← hd, hdeq]
        rfl
      have := head?_dropWhile_false (fun b => !b) c y hh
      cases y
      · simp at this
      · rfl
    subst hy
    have hpos : bitsToNat c ≠ 0 := by
      rw [hbtn, hdeq]
      have := bitsToNat_pos_of_head_true ys
      omega
    have hnb : natBits (bitsToNat c) = d := by
      rw [natBits, if_neg hpos, hbtn, hdeq]
      exact natBitsAux_of_bitsToNat (true :: ys) (by simp)
    rw [hnb]
    unfold zfillBits
    have hlen : c.length = t.length + d.length := by
      conv_lhs => rw [← hsplit]
      simp
    rw [hlen]
    have : t.length + d.length - d.length = t.length := by omega
    rw [this, ← htrep]
    exact hsplit

theorem natToBytesBE_length (n v : ℕ) : (natToBytesBE n v).length = n := by
  induction n generalizing v with
  | zero => simp [natToBytesBE]
  | succ m ih => simp [natToBytesBE, ih]

theorem bytesToNatBE_natToBytesBE (n v : ℕ) (h : v < 256 ^ n) :
    bytesToNatBE (natToBytesBE n v) = v := by
  induction n generalizing v with
  | zero => simp [natToBytesBE, bytesToNatBE]; omega
  | succ m ih =>
    rw [natToBytesBE, bytesToNatBE_append]
    have hd : v / 256 < 256 ^ m := by
      rw [Nat.div_lt_iff_lt_mul (by omega)]
      calc v < 256 ^ (m + 1) := h
        _ = 256 ^ m * 256 := by rw [pow_succ]
    rw [ih _ hd]
    simp [bytesToNatBE]
    omega

theorem natToBytesBE_bytes_lt (n v : ℕ) :
    ∀ b ∈ natToBytesBE n v, b < 256 := by
  induction n generalizing v with
  | zero => simp [natToBytesBE]
  | succ m ih =>
    intro b hb
    rw [natToBytesBE] at hb
    rcases List.mem_append.mp hb with h | h
    · exact ih _ b h
    · simp at h; omega

/-! ## Quantizer (`dct_transform.py`)

`np.round` is round-half-to-even; `astype(np.int16)` reduces modulo
`2^16` into `[-32768, 32767]`.  Coefficients are rationals (the float
values produced by the abstracted DCT stage). -/

/-- `astype(np.int16)`: reduce an integer modulo `2^16` into
`[-32768, 32767]`. -/
def toInt16 (z : ℤ) : ℤ := (z + 32768) % 65536 - 32768

/-- `np.round`: round half to even. -/
def roundHalfEven (x : ℚ) : ℤ :=
  if x - Int.floor x < 1 / 2 then Int.floor x
  else if 1 / 2 < x - Int.floor x then Int.floor x + 1
  else if Int.floor x % 2 = 0 then Int.floor x else Int.floor x + 1

/-- One entry of `quantize`: `np.round(coeffs / quant_matrix).astype(np.int16)`. -/
def quantizeEntry (c : ℚ) (q : ℕ) : ℤ := toInt16 (roundHalfEven (c / q))

/-- `quantize(coeffs, quant_matrix)`, elementwise on a block. -/
def quantize (C : ℕ → ℕ → ℚ) (Q : ℕ → ℕ → ℕ) : ℕ → ℕ → ℤ :=
  fun i j => quantizeEntry (C i j) (Q i j)

/-- `dequantize(quantized_coeffs, quant_matrix)`: elementwise product. -/
def dequantize (Z : ℕ → ℕ → ℤ) (Q : ℕ → ℕ → ℕ) : ℕ → ℕ → ℤ :=
  fun i j => Z i j * Q i j

/-- The fixed 8×8 JPEG-style base table of `create_quantization_matrix`. -/
def baseMatrix : List (List ℕ) :=
  [[16, 11, 10, 16, 24, 40, 51, 61],
   [12, 12, 14, 19, 26, 58, 60, 55],
   [14, 13, 16, 24, 40, 57, 69, 56],
   [14, 17, 22, 29, 51, 87, 80, 62],
   [18, 22, 37, 56, 68, 109, 103, 77],
   [24, 35, 55, 64, 81, 104, 113, 92],
   [49, 64, 78, 87, 103, 121, 120, 101],
   [72, 92, 95, 98, 112, 100, 103, 99]]

def baseEntry (i j : ℕ) : ℕ := (baseMatrix.getD i []).getD j 0

/-- `bit_scale = (1 << bit_depth) / 256.0` (exact: a power of two). -/
def bitScale (bd : ℕ) : ℚ := (2 ^ bd : ℚ) / 256

/-- `scale = 5000/quality if quality < 50 else 200 - 2*quality`. -/
def qualScale (q : ℕ) : ℚ :=
  if q < 50 then 5000 / (q : ℚ) else 200 - 2 * (q : ℚ)

/-- `np.clip(x, lo, hi)`. -/
def npClip (lo hi x : ℤ) : ℤ := min hi (max lo x)

/-- `create_quantization_matrix(quality, block_size, bit_depth)` entry
`(i, j)`; floats modelled as exact rationals (all intermediate values
are far inside the exactly-representable range of float64). -/
def create_quantization_matrix (quality bd : ℕ) (i j : ℕ) : ℕ :=
  (npClip 1 65535
    (Int.floor (((baseEntry i j : ℚ) * qualScale quality * bitScale bd + 50) / 100))).toNat

/-! ## Zig-zag scanner (`dct_transform.py`) -/

/-- The ascending index range of anti-diagonal `d`:
Python `range(max(0, diag - block_size + 1), min(diag + 1, block_size))`
(natural subtraction realises the `max(0, ·)`). -/
def diagIndices (B d : ℕ) : List ℕ :=
  List.range' (d + 1 - B) (min (d + 1) B - (d + 1 - B))

/-- `zigzag_order(block_size)`.  On an even diagonal the row index
ascends; on an odd diagonal the Python loop walks the same index set
downwards, i.e. the reversed list. -/
def zigzag_order (B : ℕ) : List (ℕ × ℕ) :=
  (List.range (2 * B - 1)).flatMap (fun d =>
    if d % 2 = 0 then (diagIndices B d).map (fun i => (i, d - i))
    else ((diagIndices B d).reverse).map (fun i => (i, d - i)))

/-- `zigzag_flatten(block)`. -/
def zigzag_flatten (B : ℕ) (M : ℕ → ℕ → ℤ) : List ℤ :=
  (zigzag_order B).map (fun p => M p.1 p.2)

/-- Functional update of one matrix entry (`block[i, j] = v`). -/
def updFun (g : ℕ → ℕ → ℤ) (i j : ℕ) (v : ℤ) : ℕ → ℕ → ℤ :=
  fun a b => if a = i ∧ b = j then v else g a b

/-- `zigzag_unflatten(flattened, block_size)`: writes `flattened[idx]`
at position `order[idx]` over a zero matrix; `IndexError` (modelled as
`none`) when `flattened` is shorter than the scan order. -/
def zigzag_unflatten (l : List ℤ) (B : ℕ) : Option (ℕ → ℕ → ℤ) :=
  if (zigzag_order B).length ≤ l.length then
    some (((zigzag_order B).zip l).foldl
      (fun g pv => updFun g pv.1.1 pv.1.2 pv.2) (fun _ _ => 0))
  else none

/-- All positions of a `B × B` block, row-major. -/
def allPairs (B : ℕ) : List (ℕ × ℕ) :=
  (List.range B).flatMap (fun i => (List.range B).map (fun j => (i, j)))

theorem mem_diagIndices {B d i : ℕ} :
    i ∈ diagIndices B d ↔ d + 1 - B ≤ i ∧ i < min (d + 1) B := by
  unfold diagIndices
  rw [List.mem_range'_1]
  omega

/-- Every element emitted for diagonal `d` has coordinate sum `d` and
row index in the diagonal's range. -/
theorem mem_diag_emit {B d : ℕ} {p : ℕ × ℕ}
    (hp : p ∈ (if d % 2 = 0 then (diagIndices B d).map (fun i => (i, d - i))
      else ((diagIndices B d).reverse).map (fun i => (i, d - i)))) :
    p.1 ∈ diagIndices B d ∧ p.1 + p.2 = d := by
  by_cases he : d % 2 = 0 <;>
    simp only [he, reduceIte, List.mem_map, List.mem_reverse] at hp <;>
  · obtain ⟨a, ha, hpa⟩ := hp
    rw [mem_diagIndices] at ha
    cases hpa
    refine ⟨mem_diagIndices.mpr ha, ?_⟩
    simp only
    omega

theorem mem_zigzag_order {B : ℕ} {p : ℕ × ℕ} :
    p ∈ zigzag_order B ↔ p.1 < B ∧ p.2 < B := by
  obtain ⟨i, j⟩ := p
  unfold zigzag_order
  rw [List.mem_flatMap]
  constructor
  · rintro ⟨d, hd, hmem⟩
    rw [List.mem_range] at hd
    obtain ⟨ha, hsum⟩ := mem_diag_emit hmem
    rw [mem_diagIndices] at ha
    simp only at ha hsum ⊢
    omega
  · rintro ⟨hi, hj⟩
    refine ⟨i + j, by rw [List.mem_range]; omega, ?_⟩
    have hmem : i ∈ diagIndices B (i + j) := by
      rw [mem_diagIndices]
      omega
    by_cases he : (i + j) % 2 = 0 <;>
      simp only [he, reduceIte, List.mem_map, List.mem_reverse] <;>
      exact ⟨i, hmem, by rw [Nat.add_sub_cancel_left]⟩

theorem nodup_zigzag_order (B : ℕ) : (zigzag_order B).Nodup := by
  unfold zigzag_order
  rw [List.nodup_flatMap]
  constructor
  · intro d hd
    have hmap : ∀ (l : List ℕ), l.Nodup → (l.map (fun i => (i, d - i))).Nodup := by
      intro l hl
      exact hl.map (fun a b h => (Prod.mk.injEq .. ▸ h).1)
    by_cases he : d % 2 = 0 <;> simp only [he, reduceIte]
    · exact hmap _ (List.nodup_range' ..)
    · exact hmap _ (List.nodup_reverse.mpr (List.nodup_range' ..))
  · refine (List.pairwise_lt_range _).imp ?_
    intro d e hlt p hp hq
    have h1 := (mem_diag_emit hp).2
    have h2 := (mem_diag_emit hq).2
    omega

theorem nodup_allPairs (B : ℕ) : (allPairs B).Nodup := by
  unfold allPairs
  rw [List.nodup_flatMap]
  refine ⟨fun i _ => (List.nodup_range _).map fun a b h => (Prod.mk.injEq .. ▸ h).2, ?_⟩
  refine (List.pairwise_lt_range _).imp ?_
  intro a b hlt p hp hq
  simp only [List.mem_map, List.mem_range] at hp hq
  obtain ⟨x, _, hx⟩ := hp
  obtain ⟨y, _, hy⟩ := hq
  cases hx
  cases hy
  omega

theorem mem_allPairs {B : ℕ} {p : ℕ × ℕ} :
    p ∈ allPairs B ↔ p.1 < B ∧ p.2 < B := by
  obtain ⟨i, j⟩ := p
  simp [allPairs, List.mem_flatMap, List.mem_range]

theorem zigzag_order_perm_allPairs (B : ℕ) :
    (zigzag_order B).Perm (allPairs B) := by
  refine (List.perm_ext_iff_of_nodup (nodup_zigzag_order B) (nodup_allPairs B)).mpr ?_
  intro p
  rw [mem_zigzag_order, mem_allPairs]

theorem length_zigzag_order (B : ℕ) : (zigzag_order B).length = B * B := by
  rw [(zigzag_order_perm_allPairs B).length_eq]
  unfold allPairs
  rw [List.length_flatMap]
  have : (List.range B).map (List.length ∘ fun i => (List.range B).map (fun j => (i, j)))
      = List.replicate B B := by
    rw [List.eq_replicate_iff]
    constructor
    · simp
    · intro b hb
      simp only [List.mem_map, Function.comp] at hb
      obtain ⟨i, _, hi⟩ := hb
      simp at hi
      omega
  rw [this, List.sum_replicate, smul_eq_mul]

theorem foldl_upd_not_mem (ps : List ((ℕ × ℕ) × ℤ)) (g : ℕ → ℕ → ℤ) (i j : ℕ)
    (h : ∀ pv ∈ ps, pv.1 ≠ (i, j)) :
    (ps.foldl (fun g pv => updFun g pv.1.1 pv.1.2 pv.2) g) i j = g i j := by
  induction ps generalizing g with
  | nil => rfl
  | cons pv rest ih =>
    rw [List.foldl_cons, ih _ (fun x hx => h x (List.mem_cons_of_mem _ hx))]
    unfold updFun
    have hne := h pv (List.mem_cons_self ..)
    refine if_neg ?_
    rintro ⟨rfl, rfl⟩
    exact hne Prod.mk.eta.symm

theorem foldl_upd_mem (ps : List ((ℕ × ℕ) × ℤ)) (g : ℕ → ℕ → ℤ) (i j : ℕ) (v : ℤ)
    (hmem : ((i, j), v) ∈ ps) (hnd : (ps.map Prod.fst).Nodup) :
    (ps.foldl (fun g pv => updFun g pv.1.1 pv.1.2 pv.2) g) i j = v := by
  induction ps generalizing g with
  | nil => simp at hmem
  | cons pv rest ih =>
    rw [List.map_cons, List.nodup_cons] at hnd
    rcases List.mem_cons.mp hmem with h | h
    · subst h
      rw [List.foldl_cons]
      rw [foldl_upd_not_mem]
      · simp [updFun]
      · intro x hx hfst
        apply hnd.1
        rw [← hfst]
        exact List.mem_map.mpr ⟨x, hx, rfl⟩
    · rw [List.foldl_cons]
      exact ih _ h hnd.2

/-- Zig-zag round trip: unflattening the flattened block restores every
in-range entry. -/
theorem zigzag_unflatten_flatten (B : ℕ) (M : ℕ → ℕ → ℤ) :
    ∃ g, zigzag_unflatten (zigzag_flatten B M) B = some g ∧
      ∀ i j, i < B → j < B → g i j = M i j := by
  unfold zigzag_unflatten zigzag_flatten
  rw [if_pos (by rw [List.length_map])]
  refine ⟨_, rfl, ?_⟩
  intro i j hi hj
  have hzipgen : ∀ (l : List (ℕ × ℕ)),
      l.zip (l.map (fun p => M p.1 p.2)) = l.map (fun p => (p, M p.1 p.2)) := by
    intro l
    induction l with
    | nil => rfl
    | cons x xs ih => simp [ih]
  rw [hzipgen]
  apply foldl_upd_mem
  · exact List.mem_map_of_mem _ (mem_zigzag_order.mpr ⟨hi, hj⟩)
  · have : ((zigzag_order B).map (fun p => (p, M p.1 p.2))).map Prod.fst
        = zigzag_order B := by
      rw [List.map_map]
      exact List.map_id ..
    rw [this]
    exact nodup_zigzag_order B

/-! ## Bitstream framer (`bitstream.py`) -/

/-- `MAGIC_NUMBER = b'MEDC'`. -/
def MAGIC : List ℕ := [77, 69, 68, 67]

/-- The dictionary returned by `unpack_bitstream` (the quantization
matrix is kept as its flat row-major entry list). -/
structure Frame where
  width : ℕ
  height : ℕ
  bit_depth : ℕ
  block_size : ℕ
  quality : ℕ
  quant_matrix : List ℕ
  huffman_table : List ℕ
  encoded_data : List ℕ
  num_bits : ℕ
deriving DecidableEq

/-- `pack_bitstream`: emits the framed byte sequence; `none` models the
`struct.error`/`ValueError` raised when a field does not fit its width
(`'>H'`/`'>I'` packing or `bytearray.append`). -/
def pack_bitstream (width height bit_depth block_size quality : ℕ)
    (quant : List ℕ) (huffman_table encoded_data : List ℕ) (num_bits : ℕ) :
    Option (List ℕ) :=
  if width < 2 ^ 16 ∧ height < 2 ^ 16 ∧ bit_depth < 2 ^ 8 ∧ block_size < 2 ^ 8 ∧
     quality < 2 ^ 8 ∧ quant.length < 2 ^ 16 ∧ (∀ v ∈ quant, v < 2 ^ 16) ∧
     huffman_table.length < 2 ^ 16 ∧ num_bits < 2 ^ 32 ∧ encoded_data.length < 2 ^ 32 then
    some (MAGIC ++ [1] ++ u16be width ++ u16be height ++
      [bit_depth, block_size, quality] ++
      u16be quant.length ++ quant.flatMap u16be ++
      u16be huffman_table.length ++ huffman_table ++
      u32be num_bits ++ u32be encoded_data.length ++ encoded_data)
  else none

/-- The loop reading `quant_size` big-endian `uint16` entries. -/
def readU16List (d : List ℕ) : ℕ → ℕ → Option (List ℕ)
  | _, 0 => some []
  | off, n + 1 =>
    (readU16 d off).bind fun v =>
      (readU16List d (off + 2) n).map fun rest => v :: rest

/-- `unpack_bitstream`: parses a frame; `none` models every raised
exception (`ValueError` on magic/version, `struct.error` on a short
fixed-width read, `IndexError` on a short single-byte read, and the
`np.reshape` failure when `quant_size ≠ block_size²`).  The
`huffman_table` and `encoded_data` sections are Python slices and
silently truncate. -/
def unpack_bitstream (d : List ℕ) : Option Frame :=
  if sliceBytes d 0 4 ≠ MAGIC then none
  else (readU8 d 4).bind fun version =>
  if version ≠ 1 then none
  else (readU16 d 5).bind fun width =>
  (readU16 d 7).bind fun height =>
  (readU8 d 9).bind fun bit_depth =>
  (readU8 d 10).bind fun block_size =>
  (readU8 d 11).bind fun quality =>
  (readU16 d 12).bind fun quant_size =>
  (readU16List d 14 quant_size).bind fun quant =>
  if quant_size ≠ block_size * block_size then none
  else (readU16 d (14 + 2 * quant_size)).bind fun huffman_size =>
  (readU32 d (14 + 2 * quant_size + 2 + huffman_size)).bind fun num_bits =>
  (readU32 d (14 + 2 * quant_size + 2 + huffman_size + 4)).bind fun encoded_size =>
  some ⟨width, height, bit_depth, block_size, quality, quant,
        sliceBytes d (14 + 2 * quant_size + 2) huffman_size,
        sliceBytes d (14 + 2 * quant_size + 2 + huffman_size + 8) encoded_size,
        num_bits⟩

/-! ### Positional evaluation lemmas for the readers -/

theorem getD_append_right (pre l : List ℕ) (k : ℕ) :
    (pre ++ l).getD (pre.length + k) 0 = l.getD k 0 := by
  have hk : pre.length + k - pre.length = k := by omega
  rw [List.getD_eq_getElem?_getD, List.getD_eq_getElem?_getD,
    List.getElem?_append_right (by omega), hk]

theorem readU8_at (d pre post : List ℕ) (x off : ℕ)
    (hd : d = pre ++ x :: post) (hoff : pre.length = off) :
    readU8 d off = some x := by
  subst hd hoff
  unfold readU8
  rw [List.get?_eq_getElem?, List.getElem?_append_right (by omega)]
  simp

theorem readU16_at (d pre post : List ℕ) (n off : ℕ) (hn : n < 2 ^ 16)
    (hd : d = pre ++ u16be n ++ post) (hoff : pre.length = off) :
    readU16 d off = some n := by
  subst hoff
  have hu : u16be n = [n / 256, n % 256] := by
    show natToBytesBE 2 n = _
    have h1 : n / 256 < 256 := by omega
    simp [natToBytesBE, Nat.mod_eq_of_lt h1]
  rw [hu] at hd
  subst hd
  have h0 := getD_append_right pre ([n / 256, n % 256] ++ post) 0
  have h1 := getD_append_right pre ([n / 256, n % 256] ++ post) 1
  rw [Nat.add_zero] at h0
  unfold readU16
  rw [List.append_assoc, if_pos (by rw [List.length_append]; simp only [List.length_append, List.length_cons, List.length_nil]; omega), h0, h1]
  simp only [List.cons_append, List.getD_cons_zero, List.getD_cons_succ]
  congr 1
  omega

theorem readU32_at (d pre post : List ℕ) (n off : ℕ) (hn : n < 2 ^ 32)
    (hd : d = pre ++ u32be n ++ post) (hoff : pre.length = off) :
    readU32 d off = some n := by
  subst hoff
  have hu : u32be n = [n / 256 / 256 / 256 % 256, n / 256 / 256 % 256,
      n / 256 % 256, n % 256] := rfl
  rw [hu] at hd
  subst hd
  have h0 := getD_append_right pre ([n / 256 / 256 / 256 % 256, n / 256 / 256 % 256,
    n / 256 % 256, n % 256] ++ post) 0
  have h1 := getD_append_right pre ([n / 256 / 256 / 256 % 256, n / 256 / 256 % 256,
    n / 256 % 256, n % 256] ++ post) 1
  have h2 := getD_append_right pre ([n / 256 / 256 / 256 % 256, n / 256 / 256 % 256,
    n / 256 % 256, n % 256] ++ post) 2
  have h3 := getD_append_right pre ([n / 256 / 256 / 256 % 256, n / 256 / 256 % 256,
    n / 256 % 256, n % 256] ++ post) 3
  rw [Nat.add_zero] at h0
  unfold readU32
  rw [List.append_assoc, if_pos (by rw [List.length_append]; simp only [List.length_append, List.length_cons, List.length_nil]; omega), h0, h1, h2, h3]
  simp only [List.cons_append, List.getD_cons_zero, List.getD_cons_succ]
  congr 1
  have e3 : (256 : ℕ) ^ 3 = 16777216 := by norm_num
  have e2 : (256 : ℕ) ^ 2 = 65536 := by norm_num
  rw [e3, e2]
  omega

theorem slice_at (d pre mid post : List ℕ) (off n : ℕ)
    (hd : d = pre ++ mid ++ post) (hoff : pre.length = off) (hn : mid.length = n) :
    sliceBytes d off n = mid := by
  subst hd hoff hn
  unfold sliceBytes
  rw [List.append_assoc, List.drop_left, List.take_left]

theorem slice_at_end (d pre mid : List ℕ) (off n : ℕ)
    (hd : d = pre ++ mid) (hoff : pre.length = off) :
    sliceBytes d off n = mid.take n := by
  subst hd hoff
  unfold sliceBytes
  rw [List.drop_left]

theorem length_flatMap_u16be (l : List ℕ) : (l.flatMap u16be).length = 2 * l.length := by
  induction l with
  | nil => rfl
  | cons x xs ih =>
    have h2 : (u16be x).length = 2 := natToBytesBE_length 2 x
    rw [List.flatMap_cons, List.length_append, ih, h2, List.length_cons]
    ring

theorem readU16List_at (vals : List ℕ) (d pre post : List ℕ) (off : ℕ)
    (hv : ∀ v ∈ vals, v < 2 ^ 16)
    (hd : d = pre ++ vals.flatMap u16be ++ post) (hoff : pre.length = off) :
    readU16List d off vals.length = some vals := by
  induction vals generalizing pre off with
  | nil => rfl
  | cons v vs ih =>
    rw [show (v :: vs).length = vs.length + 1 from rfl]
    unfold readU16List
    have hread : readU16 d off = some v := by
      refine readU16_at d pre (vs.flatMap u16be ++ post) v off
        (hv v (List.mem_cons_self ..)) ?_ hoff
      rw [hd, List.flatMap_cons]
      simp [List.append_assoc]
    rw [hread, Option.some_bind]
    have hrest : readU16List d (off + 2) vs.length = some vs := by
      refine ih (pre ++ u16be v) (off + 2) (fun x hx => hv x (List.mem_cons_of_mem _ hx)) ?_ ?_
      · rw [hd, List.flatMap_cons]
        simp [List.append_assoc]
      · have h2 : (u16be v).length = 2 := natToBytesBE_length 2 v
        rw [List.length_append, hoff, h2]
    rw [hrest, Option.map_some']

/-! ### Readers on truncated data -/

theorem readU8_take_eq (l : List ℕ) (k off : ℕ) (h : off < k) :
    readU8 (l.take k) off = readU8 l off := by
  unfold readU8
  rw [List.get?_eq_getElem?, List.get?_eq_getElem?, List.getElem?_take_of_lt h]

theorem readU8_take_none (l : List ℕ) (k off : ℕ) (h : k ≤ off) :
    readU8 (l.take k) off = none := by
  unfold readU8
  rw [List.get?_eq_none]
  rw [List.length_take]
  omega

theorem getD_take_eq (l : List ℕ) (k off : ℕ) (h : off < k) :
    (l.take k).getD off 0 = l.getD off 0 := by
  rw [List.getD_eq_getElem?_getD, List.getD_eq_getElem?_getD,
    List.getElem?_take_of_lt h]

theorem readU16_take_eq (l : List ℕ) (k off : ℕ) (h : off + 2 ≤ k)
    (hk : k ≤ l.length) : readU16 (l.take k) off = readU16 l off := by
  unfold readU16
  rw [List.length_take]
  rw [if_pos (by omega), if_pos (by omega),
    getD_take_eq l k off (by omega), getD_take_eq l k (off + 1) (by omega)]

theorem readU16_take_none (l : List ℕ) (k off : ℕ) (h : k < off + 2) :
    readU16 (l.take k) off = none := by
  unfold readU16
  rw [List.length_take, if_neg (by omega)]

theorem readU32_take_eq (l : List ℕ) (k off : ℕ) (h : off + 4 ≤ k)
    (hk : k ≤ l.length) : readU32 (l.take k) off = readU32 l off := by
  unfold readU32
  rw [List.length_take]
  rw [if_pos (by omega), if_pos (by omega),
    getD_take_eq l k off (by omega), getD_take_eq l k (off + 1) (by omega),
    getD_take_eq l k (off + 2) (by omega), getD_take_eq l k (off + 3) (by omega)]

theorem readU32_take_none (l : List ℕ) (k off : ℕ) (h : k < off + 4) :
    readU32 (l.take k) off = none := by
  unfold readU32
  rw [List.length_take, if_neg (by omega)]

theorem readU16List_take_eq (n : ℕ) (l : List ℕ) (k off : ℕ)
    (h : off + 2 * n ≤ k) (hk : k ≤ l.length) :
    readU16List (l.take k) off n = readU16List l off n := by
  induction n generalizing off with
  | zero => rfl
  | succ m ih =>
    unfold readU16List
    rw [readU16_take_eq l k off (by omega) hk, ih (off + 2) (by omega)]

theorem readU16List_take_none (n : ℕ) (l : List ℕ) (k off : ℕ)
    (h1 : 1 ≤ n) (h : k < off + 2 * n) :
    readU16List (l.take k) off n = none := by
  induction n generalizing off with
  | zero => omega
  | succ m ih =>
    unfold readU16List
    by_cases hc : k < off + 2
    · rw [readU16_take_none l k off hc]
      rfl
    · have hm : 1 ≤ m := by omega
      cases hr : readU16 (l.take k) off with
      | none => rfl
      | some v =>
        rw [Option.some_bind, ih (off + 2) hm (by omega)]
        rfl

theorem slice_magic_take_eq (l : List ℕ) (k : ℕ) (h : 4 ≤ k) :
    sliceBytes (l.take k) 0 4 = sliceBytes l 0 4 := by
  unfold sliceBytes
  rw [List.drop_zero, List.drop_zero, List.take_take]
  congr 1
  omega

/-- All frame bytes up to but excluding the payload section. -/
def frameCore (width height bit_depth block_size quality : ℕ)
    (quant table : List ℕ) (num_bits payload_len : ℕ) : List ℕ :=
  MAGIC ++ [1] ++ u16be width ++ u16be height ++
  [bit_depth, block_size, quality] ++
  u16be quant.length ++ quant.flatMap u16be ++
  u16be table.length ++ table ++
  u32be num_bits ++ u32be payload_len

theorem pack_eq_frameCore (width height bit_depth block_size quality : ℕ)
    (quant table payload : List ℕ) (num_bits : ℕ) (F : List ℕ)
    (h : pack_bitstream width height bit_depth block_size quality
      quant table payload num_bits = some F) :
    F = frameCore width height bit_depth block_size quality
      quant table num_bits payload.length ++ payload ∧
    width < 2 ^ 16 ∧ height < 2 ^ 16 ∧ bit_depth < 2 ^ 8 ∧ block_size < 2 ^ 8 ∧
    quality < 2 ^ 8 ∧ quant.length < 2 ^ 16 ∧ (∀ v ∈ quant, v < 2 ^ 16) ∧
    table.length < 2 ^ 16 ∧ num_bits < 2 ^ 32 ∧ payload.length < 2 ^ 32 := by
  unfold pack_bitstream at h
  by_cases hc : width < 2 ^ 16 ∧ height < 2 ^ 16 ∧ bit_depth < 2 ^ 8 ∧
      block_size < 2 ^ 8 ∧ quality < 2 ^ 8 ∧ quant.length < 2 ^ 16 ∧
      (∀ v ∈ quant, v < 2 ^ 16) ∧ table.length < 2 ^ 16 ∧
      num_bits < 2 ^ 32 ∧ payload.length < 2 ^ 32
  · rw [if_pos hc] at h
    refine ⟨?_, hc.1, hc.2.1, hc.2.2.1, hc.2.2.2.1, hc.2.2.2.2.1, hc.2.2.2.2.2.1,
      hc.2.2.2.2.2.2.1, hc.2.2.2.2.2.2.2.1, hc.2.2.2.2.2.2.2.2.1, hc.2.2.2.2.2.2.2.2.2⟩
    have := Option.some.injEq .. ▸ h
    unfold frameCore
    simp only [List.append_assoc] at *
    exact (Option.some.inj h).symm
  · rw [if_neg hc] at h
    exact absurd h (by simp)

theorem length_frameCore (width height bit_depth block_size quality : ℕ)
    (quant table : List ℕ) (num_bits payload_len : ℕ) :
    (frameCore width height bit_depth block_size quality quant table
      num_bits payload_len).length = 24 + 2 * quant.length + table.length := by
  unfold frameCore MAGIC
  simp only [List.length_append, List.length_cons, List.length_nil]
  have h1 : (u16be width).length = 2 := natToBytesBE_length 2 width
  have h2 : (u16be height).length = 2 := natToBytesBE_length 2 height
  have h3 : (u16be quant.length).length = 2 := natToBytesBE_length 2 quant.length
  have h4 : (u16be table.length).length = 2 := natToBytesBE_length 2 table.length
  have h5 : (u32be num_bits).length = 4 := natToBytesBE_length 4 num_bits
  have h6 : (u32be payload_len).length = 4 := natToBytesBE_length 4 payload_len
  have h7 := length_flatMap_u16be quant
  omega

/-- Master evaluation of `unpack_bitstream` on a frame core followed by
arbitrary trailing bytes: the parse succeeds and the payload is whatever
prefix of the trailing bytes the declared payload length covers. -/
theorem unpack_frameCore_append
    (w h bd bs q : ℕ) (quant table : List ℕ) (nb pl : ℕ) (tail : List ℕ)
    (hw : w < 2 ^ 16) (hh : h < 2 ^ 16) (hbd : bd < 2 ^ 8) (hbs : bs < 2 ^ 8)
    (hq : q < 2 ^ 8) (hql : quant.length < 2 ^ 16) (hqv : ∀ v ∈ quant, v < 2 ^ 16)
    (htl : table.length < 2 ^ 16) (hnb : nb < 2 ^ 32) (hpl : pl < 2 ^ 32)
    (hsq : quant.length = bs * bs) :
    unpack_bitstream (frameCore w h bd bs q quant table nb pl ++ tail)
      = some ⟨w, h, bd, bs, q, quant, table, tail.take pl, nb⟩ := by
  have hlen2 : ∀ m : ℕ, (u16be m).length = 2 := fun m => natToBytesBE_length 2 m
  have hlen4 : ∀ m : ℕ, (u32be m).length = 4 := fun m => natToBytesBE_length 4 m
  have hlenq := length_flatMap_u16be quant
  have hdecomp : frameCore w h bd bs q quant table nb pl ++ tail
      = MAGIC ++ ([1] ++ (u16be w ++ (u16be h ++ ([bd, bs, q] ++
        (u16be quant.length ++ (quant.flatMap u16be ++ (u16be table.length ++
        (table ++ (u32be nb ++ (u32be pl ++ tail)))))))))) := by
    unfold frameCore
    simp [List.append_assoc]
  set d := frameCore w h bd bs q quant table nb pl ++ tail with hdd
  have hmagic : sliceBytes d 0 4 = MAGIC := by
    rw [hdecomp]
    show ((MAGIC ++ _).drop 0).take 4 = MAGIC
    rw [List.drop_zero]
    exact List.take_left' rfl
  have hver : readU8 d 4 = some 1 := by
    refine readU8_at d MAGIC (u16be w ++ (u16be h ++ ([bd, bs, q] ++
      (u16be quant.length ++ (quant.flatMap u16be ++ (u16be table.length ++
      (table ++ (u32be nb ++ (u32be pl ++ tail))))))))) 1 4 ?_ rfl
    rw [hdecomp]
    rfl
  have hwr : readU16 d 5 = some w := by
    refine readU16_at d (MAGIC ++ [1]) (u16be h ++ ([bd, bs, q] ++
      (u16be quant.length ++ (quant.flatMap u16be ++ (u16be table.length ++
      (table ++ (u32be nb ++ (u32be pl ++ tail)))))))) w 5 hw ?_ (by simp [MAGIC])
    rw [hdecomp]
    simp
  have hhr : readU16 d 7 = some h := by
    refine readU16_at d (MAGIC ++ [1] ++ u16be w) ([bd, bs, q] ++
      (u16be quant.length ++ (quant.flatMap u16be ++ (u16be table.length ++
      (table ++ (u32be nb ++ (u32be pl ++ tail))))))) h 7 hh ?_
      (by simp [MAGIC, hlen2])
    rw [hdecomp]
    simp
  have hbdr : readU8 d 9 = some bd := by
    refine readU8_at d (MAGIC ++ [1] ++ u16be w ++ u16be h) ([bs, q] ++
      (u16be quant.length ++ (quant.flatMap u16be ++ (u16be table.length ++
      (table ++ (u32be nb ++ (u32be pl ++ tail))))))) bd 9 ?_
      (by simp [MAGIC, hlen2])
    rw [hdecomp]
    simp
  have hbsr : readU8 d 10 = some bs := by
    refine readU8_at d (MAGIC ++ [1] ++ u16be w ++ u16be h ++ [bd]) ([q] ++
      (u16be quant.length ++ (quant.flatMap u16be ++ (u16be table.length ++
      (table ++ (u32be nb ++ (u32be pl ++ tail))))))) bs 10 ?_
      (by simp [MAGIC, hlen2])
    rw [hdecomp]
    simp
  have hqr : readU8 d 11 = some q := by
    refine readU8_at d (MAGIC ++ [1] ++ u16be w ++ u16be h ++ [bd, bs])
      (u16be quant.length ++ (quant.flatMap u16be ++ (u16be table.length ++
      (table ++ (u32be nb ++ (u32be pl ++ tail)))))) q 11 ?_
      (by simp [MAGIC, hlen2])
    rw [hdecomp]
    simp
  have hqsr : readU16 d 12 = some quant.length := by
    refine readU16_at d (MAGIC ++ [1] ++ u16be w ++ u16be h ++ [bd, bs, q])
      (quant.flatMap u16be ++ (u16be table.length ++
      (table ++ (u32be nb ++ (u32be pl ++ tail)))))
      quant.length 12 hql ?_ (by simp [MAGIC, hlen2])
    rw [hdecomp]
    simp
  have hquantr : readU16List d 14 quant.length = some quant := by
    refine readU16List_at quant d
      (MAGIC ++ [1] ++ u16be w ++ u16be h ++ [bd, bs, q] ++ u16be quant.length)
      (u16be table.length ++ (table ++ (u32be nb ++ (u32be pl ++ tail))))
      14 hqv ?_ (by simp [MAGIC, hlen2])
    rw [hdecomp]
    simp
  have hhsr : readU16 d (14 + 2 * quant.length) = some table.length := by
    refine readU16_at d
      (MAGIC ++ [1] ++ u16be w ++ u16be h ++ [bd, bs, q] ++ u16be quant.length ++
        quant.flatMap u16be) (table ++ (u32be nb ++ (u32be pl ++ tail)))
      table.length (14 + 2 * quant.length) htl ?_
      (by simp [MAGIC, hlen2, hlenq]; omega)
    rw [hdecomp]
    simp
  have htabr : sliceBytes d (14 + 2 * quant.length + 2) table.length = table := by
    refine slice_at d
      (MAGIC ++ [1] ++ u16be w ++ u16be h ++ [bd, bs, q] ++ u16be quant.length ++
        quant.flatMap u16be ++ u16be table.length) table
      (u32be nb ++ (u32be pl ++ tail))
      (14 + 2 * quant.length + 2) table.length ?_
      (by simp [MAGIC, hlen2, hlenq]; omega) rfl
    rw [hdecomp]
    simp
  have hnbr : readU32 d (14 + 2 * quant.length + 2 + table.length) = some nb := by
    refine readU32_at d
      (MAGIC ++ [1] ++ u16be w ++ u16be h ++ [bd, bs, q] ++ u16be quant.length ++
        quant.flatMap u16be ++ u16be table.length ++ table) (u32be pl ++ tail) nb
      (14 + 2 * quant.length + 2 + table.length) hnb ?_
      (by simp [MAGIC, hlen2, hlenq]; omega)
    rw [hdecomp]
    simp
  have hplr : readU32 d (14 + 2 * quant.length + 2 + table.length + 4) = some pl := by
    refine readU32_at d
      (MAGIC ++ [1] ++ u16be w ++ u16be h ++ [bd, bs, q] ++ u16be quant.length ++
        quant.flatMap u16be ++ u16be table.length ++ table ++ u32be nb) tail pl
      (14 + 2 * quant.length + 2 + table.length + 4) hpl ?_
      (by simp [MAGIC, hlen2, hlen4, hlenq]; omega)
    rw [hdecomp]
    simp
  have hpayr : sliceBytes d (14 + 2 * quant.length + 2 + table.length + 8) pl
      = tail.take pl := by
    refine slice_at_end d
      (MAGIC ++ [1] ++ u16be w ++ u16be h ++ [bd, bs, q] ++ u16be quant.length ++
        quant.flatMap u16be ++ u16be table.length ++ table ++ u32be nb ++ u32be pl)
      tail (14 + 2 * quant.length + 2 + table.length + 8) pl ?_
      (by simp [MAGIC, hlen2, hlen4, hlenq]; omega)
    rw [hdecomp]
    simp
  have hqeq : (quant.length ≠ bs * bs) = False := by
    simp [hsq]
  unfold unpack_bitstream
  simp only [hmagic, hver, hwr, hhr, hbdr, hbsr, hqr, hqsr, hquantr, hqeq, hhsr,
    htabr, hnbr, hplr, hpayr, Option.some_bind, ne_eq, not_true_eq_false,
    if_false, ite_false, eq_self_iff_true, not_false_eq_true, ite_true,
    if_true, reduceIte]

/-- Truncating a frame anywhere strictly before the payload bytes makes
`unpack_bitstream` fail: some fixed-width read crosses the cut. -/
theorem unpack_frameCore_truncated
    (w h bd bs q : ℕ) (quant table : List ℕ) (nb pl : ℕ)
    (hw : w < 2 ^ 16) (hh : h < 2 ^ 16) (hbd : bd < 2 ^ 8) (hbs : bs < 2 ^ 8)
    (hq : q < 2 ^ 8) (hql : quant.length < 2 ^ 16) (hqv : ∀ v ∈ quant, v < 2 ^ 16)
    (htl : table.length < 2 ^ 16) (hnb : nb < 2 ^ 32) (hpl : pl < 2 ^ 32)
    (hsq : quant.length = bs * bs) (k : ℕ)
    (hk : k < 24 + 2 * quant.length + table.length) :
    unpack_bitstream ((frameCore w h bd bs q quant table nb pl).take k) = none := by
  have hlen2 : ∀ m : ℕ, (u16be m).length = 2 := fun m => natToBytesBE_length 2 m
  have hlen4 : ∀ m : ℕ, (u32be m).length = 4 := fun m => natToBytesBE_length 4 m
  have hlenq := length_flatMap_u16be quant
  have hcl := length_frameCore w h bd bs q quant table nb pl
  have hdecomp : frameCore w h bd bs q quant table nb pl
      = MAGIC ++ ([1] ++ (u16be w ++ (u16be h ++ ([bd, bs, q] ++
        (u16be quant.length ++ (quant.flatMap u16be ++ (u16be table.length ++
        (table ++ (u32be nb ++ u32be pl))))))))) := by
    unfold frameCore
    simp [List.append_assoc]
  set c := frameCore w h bd bs q quant table nb pl with hc
  have hkle : k ≤ c.length := by omega
  have hmagic_c : sliceBytes c 0 4 = MAGIC := by
    rw [hdecomp]
    show ((MAGIC ++ _).drop 0).take 4 = MAGIC
    rw [List.drop_zero]
    exact List.take_left' rfl
  have hver_c : readU8 c 4 = some 1 := by
    refine readU8_at c MAGIC (u16be w ++ (u16be h ++ ([bd, bs, q] ++
      (u16be quant.length ++ (quant.flatMap u16be ++ (u16be table.length ++
      (table ++ (u32be nb ++ u32be pl)))))))) 1 4 ?_ rfl
    rw [hdecomp]
    rfl
  have hw_c : readU16 c 5 = some w := by
    refine readU16_at c (MAGIC ++ [1]) (u16be h ++ ([bd, bs, q] ++
      (u16be quant.length ++ (quant.flatMap u16be ++ (u16be table.length ++
      (table ++ (u32be nb ++ u32be pl))))))) w 5 hw ?_ (by simp [MAGIC])
    rw [hdecomp]
    simp
  have hh_c : readU16 c 7 = some h := by
    refine readU16_at c (MAGIC ++ [1] ++ u16be w) ([bd, bs, q] ++
      (u16be quant.length ++ (quant.flatMap u16be ++ (u16be table.length ++
      (table ++ (u32be nb ++ u32be pl)))))) h 7 hh ?_ (by simp [MAGIC, hlen2])
    rw [hdecomp]
    simp
  have hbd_c : readU8 c 9 = some bd := by
    refine readU8_at c (MAGIC ++ [1] ++ u16be w ++ u16be h) ([bs, q] ++
      (u16be quant.length ++ (quant.flatMap u16be ++ (u16be table.length ++
      (table ++ (u32be nb ++ u32be pl)))))) bd 9 ?_ (by simp [MAGIC, hlen2])
    rw [hdecomp]
    simp
  have hbs_c : readU8 c 10 = some bs := by
    refine readU8_at c (MAGIC ++ [1] ++ u16be w ++ u16be h ++ [bd]) ([q] ++
      (u16be quant.length ++ (quant.flatMap u16be ++ (u16be table.length ++
      (table ++ (u32be nb ++ u32be pl)))))) bs 10 ?_ (by simp [MAGIC, hlen2])
    rw [hdecomp]
    simp
  have hq_c : readU8 c 11 = some q := by
    refine readU8_at c (MAGIC ++ [1] ++ u16be w ++ u16be h ++ [bd, bs])
      (u16be quant.length ++ (quant.flatMap u16be ++ (u16be table.length ++
      (table ++ (u32be nb ++ u32be pl))))) q 11 ?_ (by simp [MAGIC, hlen2])
    rw [hdecomp]
    simp
  have hqs_c : readU16 c 12 = some quant.length := by
    refine readU16_at c (MAGIC ++ [1] ++ u16be w ++ u16be h ++ [bd, bs, q])
      (quant.flatMap u16be ++ (u16be table.length ++
      (table ++ (u32be nb ++ u32be pl))))
      quant.length 12 hql ?_ (by simp [MAGIC, hlen2])
    rw [hdecomp]
    simp
  have hquant_c : readU16List c 14 quant.length = some quant := by
    refine readU16List_at quant c
      (MAGIC ++ [1] ++ u16be w ++ u16be h ++ [bd, bs, q] ++ u16be quant.length)
      (u16be table.length ++ (table ++ (u32be nb ++ u32be pl)))
      14 hqv ?_ (by simp [MAGIC, hlen2])
    rw [hdecomp]
    simp
  have hhs_c : readU16 c (14 + 2 * quant.length) = some table.length := by
    refine readU16_at c
      (MAGIC ++ [1] ++ u16be w ++ u16be h ++ [bd, bs, q] ++ u16be quant.length ++
        quant.flatMap u16be) (table ++ (u32be nb ++ u32be pl))
      table.length (14 + 2 * quant.length) htl ?_
      (by simp [MAGIC, hlen2, hlenq]; omega)
    rw [hdecomp]
    simp
  have hne_magic : ¬(MAGIC ≠ MAGIC) := fun hne => hne rfl
  have hne_one : ¬((1 : ℕ) ≠ 1) := fun hne => hne rfl
  have hne_q : ¬(quant.length ≠ bs * bs) := fun hne => hne hsq
  rcases lt_or_ge k 4 with hcase | hcase
  · -- inside the magic: the 4-byte slice is too short to equal `MEDC`
    unfold unpack_bitstream
    rw [if_pos]
    intro heq
    have hlslice : (sliceBytes (c.take k) 0 4).length = 4 := by rw [heq]; rfl
    unfold sliceBytes at hlslice
    rw [List.drop_zero, List.length_take, List.length_take] at hlslice
    omega
  rcases lt_or_ge k 5 with hcase2 | hcase2
  · -- version byte missing
    unfold unpack_bitstream
    rw [slice_magic_take_eq c k (by omega), hmagic_c, if_neg hne_magic,
      readU8_take_none c k 4 (by omega), Option.none_bind]
  rcases lt_or_ge k 7 with hcase3 | hcase3
  · unfold unpack_bitstream
    rw [slice_magic_take_eq c k (by omega), hmagic_c, if_neg hne_magic,
      readU8_take_eq c k 4 (by omega), hver_c, Option.some_bind, if_neg hne_one,
      readU16_take_none c k 5 (by omega), Option.none_bind]
  rcases lt_or_ge k 9 with hcase4 | hcase4
  · unfold unpack_bitstream
    rw [slice_magic_take_eq c k (by omega), hmagic_c, if_neg hne_magic,
      readU8_take_eq c k 4 (by omega), hver_c, Option.some_bind, if_neg hne_one,
      readU16_take_eq c k 5 (by omega) hkle, hw_c, Option.some_bind,
      readU16_take_none c k 7 (by omega), Option.none_bind]
  rcases lt_or_ge k 10 with hcase5 | hcase5
  · unfold unpack_bitstream
    rw [slice_magic_take_eq c k (by omega), hmagic_c, if_neg hne_magic,
      readU8_take_eq c k 4 (by omega), hver_c, Option.some_bind, if_neg hne_one,
      readU16_take_eq c k 5 (by omega) hkle, hw_c, Option.some_bind,
      readU16_take_eq c k 7 (by omega) hkle, hh_c, Option.some_bind,
      readU8_take_none c k 9 (by omega), Option.none_bind]
  rcases lt_or_ge k 11 with hcase6 | hcase6
  · unfold unpack_bitstream
    rw [slice_magic_take_eq c k (by omega), hmagic_c, if_neg hne_magic,
      readU8_take_eq c k 4 (by omega), hver_c, Option.some_bind, if_neg hne_one,
      readU16_take_eq c k 5 (by omega) hkle, hw_c, Option.some_bind,
      readU16_take_eq c k 7 (by omega) hkle, hh_c, Option.some_bind,
      readU8_take_eq c k 9 (by omega), hbd_c, Option.some_bind,
      readU8_take_none c k 10 (by omega), Option.none_bind]
  rcases lt_or_ge k 12 with hcase7 | hcase7
  · unfold unpack_bitstream
    rw [slice_magic_take_eq c k (by omega), hmagic_c, if_neg hne_magic,
      readU8_take_eq c k 4 (by omega), hver_c, Option.some_bind, if_neg hne_one,
      readU16_take_eq c k 5 (by omega) hkle, hw_c, Option.some_bind,
      readU16_take_eq c k 7 (by omega) hkle, hh_c, Option.some_bind,
      readU8_take_eq c k 9 (by omega), hbd_c, Option.some_bind,
      readU8_take_eq c k 10 (by omega), hbs_c, Option.some_bind,
      readU8_take_none c k 11 (by omega), Option.none_bind]
  rcases lt_or_ge k 14 with hcase8 | hcase8
  · unfold unpack_bitstream
    rw [slice_magic_take_eq c k (by omega), hmagic_c, if_neg hne_magic,
      readU8_take_eq c k 4 (by omega), hver_c, Option.some_bind, if_neg hne_one,
      readU16_take_eq c k 5 (by omega) hkle, hw_c, Option.some_bind,
      readU16_take_eq c k 7 (by omega) hkle, hh_c, Option.some_bind,
      readU8_take_eq c k 9 (by omega), hbd_c, Option.some_bind,
      readU8_take_eq c k 10 (by omega), hbs_c, Option.some_bind,
      readU8_take_eq c k 11 (by omega), hq_c, Option.some_bind,
      readU16_take_none c k 12 (by omega), Option.none_bind]
  rcases lt_or_ge k (14 + 2 * quant.length) with hcase9 | hcase9
  · unfold unpack_bitstream
    rw [slice_magic_take_eq c k (by omega), hmagic_c, if_neg hne_magic,
      readU8_take_eq c k 4 (by omega), hver_c, Option.some_bind, if_neg hne_one,
      readU16_take_eq c k 5 (by omega) hkle, hw_c, Option.some_bind,
      readU16_take_eq c k 7 (by omega) hkle, hh_c, Option.some_bind,
      readU8_take_eq c k 9 (by omega), hbd_c, Option.some_bind,
      readU8_take_eq c k 10 (by omega), hbs_c, Option.some_bind,
      readU8_take_eq c k 11 (by omega), hq_c, Option.some_bind,
      readU16_take_eq c k 12 (by omega) hkle, hqs_c, Option.some_bind,
      readU16List_take_none quant.length c k 14 (by omega) (by omega),
      Option.none_bind]
  rcases lt_or_ge k (16 + 2 * quant.length) with hcase10 | hcase10
  · unfold unpack_bitstream
    rw [slice_magic_take_eq c k (by omega), hmagic_c, if_neg hne_magic,
      readU8_take_eq c k 4 (by omega), hver_c, Option.some_bind, if_neg hne_one,
      readU16_take_eq c k 5 (by omega) hkle, hw_c, Option.some_bind,
      readU16_take_eq c k 7 (by omega) hkle, hh_c, Option.some_bind,
      readU8_take_eq c k 9 (by omega), hbd_c, Option.some_bind,
      readU8_take_eq c k 10 (by omega), hbs_c, Option.some_bind,
      readU8_take_eq c k 11 (by omega), hq_c, Option.some_bind,
      readU16_take_eq c k 12 (by omega) hkle, hqs_c, Option.some_bind,
      readU16List_take_eq quant.length c k 14 (by omega) hkle, hquant_c,
      Option.some_bind, if_neg hne_q,
      readU16_take_none c k (14 + 2 * quant.length) (by omega), Option.none_bind]
  rcases lt_or_ge k (20 + 2 * quant.length + table.length) with hcase11 | hcase11
  · unfold unpack_bitstream
    rw [slice_magic_take_eq c k (by omega), hmagic_c, if_neg hne_magic,
      readU8_take_eq c k 4 (by omega), hver_c, Option.some_bind, if_neg hne_one,
      readU16_take_eq c k 5 (by omega) hkle, hw_c, Option.some_bind,
      readU16_take_eq c k 7 (by omega) hkle, hh_c, Option.some_bind,
      readU8_take_eq c k 9 (by omega), hbd_c, Option.some_bind,
      readU8_take_eq c k 10 (by omega), hbs_c, Option.some_bind,
      readU8_take_eq c k 11 (by omega), hq_c, Option.some_bind,
      readU16_take_eq c k 12 (by omega) hkle, hqs_c, Option.some_bind,
      readU16List_take_eq quant.length c k 14 (by omega) hkle, hquant_c,
      Option.some_bind, if_neg hne_q,
      readU16_take_eq c k (14 + 2 * quant.length) (by omega) hkle, hhs_c,
      Option.some_bind,
      readU32_take_none c k (14 + 2 * quant.length + 2 + table.length) (by omega),
      Option.none_bind]
  · unfold unpack_bitstream
    rw [slice_magic_take_eq c k (by omega), hmagic_c, if_neg hne_magic,
      readU8_take_eq c k 4 (by omega), hver_c, Option.some_bind, if_neg hne_one,
      readU16_take_eq c k 5 (by omega) hkle, hw_c, Option.some_bind,
      readU16_take_eq c k 7 (by omega) hkle, hh_c, Option.some_bind,
      readU8_take_eq c k 9 (by omega), hbd_c, Option.some_bind,
      readU8_take_eq c k 10 (by omega), hbs_c, Option.some_bind,
      readU8_take_eq c k 11 (by omega), hq_c, Option.some_bind,
      readU16_take_eq c k 12 (by omega) hkle, hqs_c, Option.some_bind,
      readU16List_take_eq quant.length c k 14 (by omega) hkle, hquant_c,
      Option.some_bind, if_neg hne_q,
      readU16_take_eq c k (14 + 2 * quant.length) (by omega) hkle, hhs_c,
      Option.some_bind]
    have hnb_c : readU32 c (14 + 2 * quant.length + 2 + table.length) = some nb := by
      refine readU32_at c
        (MAGIC ++ [1] ++ u16be w ++ u16be h ++ [bd, bs, q] ++ u16be quant.length ++
          quant.flatMap u16be ++ u16be table.length ++ table) (u32be pl) nb
        (14 + 2 * quant.length + 2 + table.length) hnb ?_
        (by simp [MAGIC, hlen2, hlenq]; omega)
      rw [hdecomp]
      simp
    rw [readU32_take_eq c k (14 + 2 * quant.length + 2 + table.length)
      (by omega) hkle, hnb_c, Option.some_bind,
      readU32_take_none c k (14 + 2 * quant.length + 2 + table.length + 4)
      (by omega), Option.none_bind]

/-! ## Huffman coder (`huffman_coding.py`) -/

/-- `HuffmanNode`; `nil` is Python `None`. -/
inductive HTree where
  | nil : HTree
  | node (symbol : Option ℤ) (left right : HTree) : HTree
deriving DecidableEq

/-- A heap entry: a tree together with its accumulated frequency. -/
abbrev HPool := List (HTree × ℕ)

/-- One `heappop`/`heappop`/`heappush` round of `build_huffman_tree`.
`heapq` compares nodes by frequency only, and the order among equal
frequencies is an internal detail of the heap layout; the extraction is
therefore abstracted as a strategy returning the two extracted entries
and the remaining pool.  Theorems quantify over every `ValidStrategy`,
which states exactly what `heapq` guarantees: the two entries come from
the pool (as a multiset split), and extraction succeeds whenever the
pool has at least two entries. -/
def Strategy : Type := HPool → Option ((HTree × ℕ) × (HTree × ℕ) × HPool)

def ValidStrategy (s : Strategy) : Prop :=
  (∀ pool a b rest, s pool = some (a, b, rest) → pool.Perm (a :: b :: rest)) ∧
  (∀ pool, 2 ≤ pool.length → s pool ≠ none)

/-- A concrete executable strategy: extract the first two pool entries. -/
def stratFirst : Strategy := fun pool =>
  match pool with
  | a :: b :: rest => some (a, b, rest)
  | _ => none

/-- The `while len(heap) > 1` loop; fuel is the initial pool size. -/
def buildLoop (s : Strategy) : ℕ → HPool → Option HTree
  | _, [] => none
  | _, [t] => some t.1
  | 0, _ :: _ :: _ => none
  | fuel + 1, pool =>
    match s pool with
    | none => none
    | some (a, b, rest) =>
      buildLoop s fuel ((HTree.node none a.1 b.1, a.2 + b.2) :: rest)

/-- `build_huffman_tree(symbols_freq)`: `none` is Python `None`
(empty frequency dict). -/
def build_huffman_tree (s : Strategy) (freq : List (ℤ × ℕ)) : Option HTree :=
  if freq.isEmpty then none
  else buildLoop s freq.length
    (freq.map (fun e => (HTree.node (some e.1) .nil .nil, e.2)))

/-- The recursive `traverse` of `generate_huffman_codes`; the dict is
kept as the association list in insertion (DFS, left-first) order. -/
def traverseCodes : HTree → List Bool → List (ℤ × List Bool)
  | .nil, _ => []
  | .node (some s) _ _, code => [(s, if code.isEmpty then [false] else code)]
  | .node none l r, code =>
      traverseCodes l (code ++ [false]) ++ traverseCodes r (code ++ [true])

def generate_huffman_codes : Option HTree → List (ℤ × List Bool)
  | none => []
  | some t => traverseCodes t []

/-- Dict lookup `codes[symbol]`; `KeyError` is `none`. -/
def lookupCode (codes : List (ℤ × List Bool)) (s : ℤ) : Option (List Bool) :=
  (codes.find? (fun e => e.1 == s)).map (fun e => e.2)

/-- `encode_huffman(data, codes)`. -/
def encode_huffman (data : List ℤ) (codes : List (ℤ × List Bool)) :
    Option (List Bool) :=
  (data.mapM (lookupCode codes)).map List.join

def childOf (t : HTree) (b : Bool) : HTree :=
  match t with
  | .nil => .nil
  | .node _ l r => if b then r else l

/-- The bit-walking loop of `decode_huffman`; `none` models the
`AttributeError` crash when a bit steps onto a missing child. -/
def decodeLoop (root : HTree) : List Bool → HTree → Option (List ℤ)
  | [], _ => some []
  | b :: bs, cur =>
    match childOf cur b with
    | .nil => none
    | .node none l r => decodeLoop root bs (.node none l r)
    | .node (some s) _ _ => (decodeLoop root bs root).map (fun xs => s :: xs)

/-- `decode_huffman(bitstring, root)`. -/
def decode_huffman (bits : List Bool) (root : HTree) : Option (List ℤ) :=
  match root with
  | .nil => some []
  | .node (some s) _ _ => some (List.replicate bits.length s)
  | .node none l r => decodeLoop (.node none l r) bits (.node none l r)

/-- `int(symbol).to_bytes(2, 'big', signed=True)`. -/
def int16bytes (s : ℤ) : List ℕ := natToBytesBE 2 (s % 65536).toNat

/-- One serialized table entry. -/
def serEntry (e : ℤ × List Bool) : List ℕ :=
  int16bytes e.1 ++ [e.2.length] ++
  natToBytesBE ((e.2.length + 7) / 8) (bitsToNat e.2)

/-- `serialize_huffman_table(codes)`; `none` models the `OverflowError`
of `to_bytes` (too many symbols, symbol outside int16), the `ValueError`
of `int('', 2)` (empty code) and of `bytearray.append` (code length
over 255). -/
def serialize_huffman_table (codes : List (ℤ × List Bool)) : Option (List ℕ) :=
  if codes.length < 2 ^ 16 ∧
     ∀ e ∈ codes, -32768 ≤ e.1 ∧ e.1 < 32768 ∧ 1 ≤ e.2.length ∧ e.2.length ≤ 255 then
    some (natToBytesBE 2 codes.length ++ codes.flatMap serEntry)
  else none

/-- One deserialized entry: symbol (signed, from a silently-truncating
slice), code length (`data[offset]`, may raise), then
`bin(v)[2:].zfill(L)`. -/
def parseEntry (d : List ℕ) (off : ℕ) : Option ((ℤ × List Bool) × ℕ) :=
  (readU8 d (off + 2)).map fun codeLen =>
    ((bytesToIntBE (sliceBytes d off 2),
      zfillBits codeLen (natBits (bytesToNatBE (sliceBytes d (off + 3) ((codeLen + 7) / 8))))),
     off + 3 + (codeLen + 7) / 8)

def parseEntries (d : List ℕ) : ℕ → ℕ → Option (List (ℤ × List Bool) × ℕ)
  | off, 0 => some ([], off)
  | off, n + 1 =>
    (parseEntry d off).bind fun e =>
      (parseEntries d e.2 n).map fun rest => (e.1 :: rest.1, rest.2)

/-- `deserialize_huffman_table(data)`: returns the code table and the
number of bytes consumed. -/
def deserialize_huffman_table (d : List ℕ) :
    Option (List (ℤ × List Bool) × ℕ) :=
  parseEntries d 2 (bytesToNatBE (sliceBytes d 0 2))

def setChild (t : HTree) (b : Bool) (c : HTree) : HTree :=
  match t with
  | .nil => .nil
  | .node s l r => if b then .node s l c else .node s c r

/-- The per-code insertion loop of `decode_coefficients`: walk
`code[:-1]` creating empty internal nodes where a child is missing,
then overwrite the final child with a fresh leaf. -/
def insertCode (t : HTree) : List Bool → ℤ → HTree
  | [], _ => t
  | [b], s => setChild t b (.node (some s) .nil .nil)
  | b :: b2 :: rest, s =>
      setChild t b
        (insertCode
          (match childOf t b with
           | .nil => HTree.node none .nil .nil
           | c => c)
          (b2 :: rest) s)

/-- Tree reconstruction from the code table (`root = HuffmanNode()` then
one insertion per entry, in table order). -/
def rebuildTree (codes : List (ℤ × List Bool)) : HTree :=
  codes.foldl (fun t e => insertCode t e.2 e.1) (.node none .nil .nil)

/-- The byte-packing loop of `bitstring_to_bytes` (input already
padded to a byte boundary). -/
def bitsToBytes : List Bool → List ℕ
  | [] => []
  | b :: l => bitsToNat ((b :: l).take 8) :: bitsToBytes ((b :: l).drop 8)
  termination_by l => l.length
  decreasing_by
    simp only [List.drop_succ_cons, List.length_cons, List.length_drop]
    omega

/-- `bitstring_to_bytes(bitstring)`: right-pad with zeros to a byte
boundary, then pack MSB-first; also returns the padding width. -/
def bitstring_to_bytes (bits : List Bool) : List ℕ × ℕ :=
  ((bitsToBytes (bits ++ List.replicate ((8 - bits.length % 8) % 8) false)),
   (8 - bits.length % 8) % 8)

/-- `format(byte, '08b')`. -/
def byteBits (b : ℕ) : List Bool := widthBits 8 b

/-- `bytes_to_bitstring(data, num_bits)`. -/
def bytes_to_bitstring (data : List ℕ) (numBits : ℕ) : List Bool :=
  (data.flatMap byteBits).take numBits

/-- `collections.Counter` keys in first-encounter order. -/
def counterKeys (l : List ℤ) : List ℤ :=
  l.foldl (fun acc x => if x ∈ acc then acc else acc ++ [x]) []

/-- `Counter(all_coeffs)` as an association list. -/
def counter (l : List ℤ) : List (ℤ × ℕ) :=
  (counterKeys l).map (fun s => (s, l.count s))

/-- `encode_coefficients(coeffs_list)` (parametrized by the heap
strategy): flatten, histogram, build the code, emit bits, pack bytes,
serialize the table. -/
def encode_coefficients (s : Strategy) (coeffsList : List (List ℤ)) :
    Option (List ℕ × List ℕ × ℕ) :=
  (encode_huffman coeffsList.join
      (generate_huffman_codes (build_huffman_tree s (counter coeffsList.join)))).bind
    fun bits =>
      (serialize_huffman_table
          (generate_huffman_codes (build_huffman_tree s (counter coeffsList.join)))).map
        fun table => ((bitstring_to_bytes bits).1, table, bits.length)

/-- `decode_coefficients(encoded_data, huffman_table, num_bits,
num_coeffs)`: deserialize the table, rebuild the tree, decode the first
`num_bits` bits, and trim to `num_coeffs` symbols. -/
def decode_coefficients (encoded huffTable : List ℕ) (numBits numCoeffs : ℕ) :
    Option (List ℤ) :=
  (deserialize_huffman_table huffTable).bind fun ct =>
    (decode_huffman (bytes_to_bitstring encoded numBits) (rebuildTree ct.1)).map
      fun syms => syms.take numCoeffs

/-! ### Table serialization round trip -/

theorem int16bytes_length (s : ℤ) : (int16bytes s).length = 2 :=
  natToBytesBE_length 2 _

theorem bytesToIntBE_int16bytes (s : ℤ) (h1 : -32768 ≤ s) (h2 : s < 32768) :
    bytesToIntBE (int16bytes s) = s := by
  unfold int16bytes bytesToIntBE
  have hm : (0 : ℤ) ≤ s % 65536 := Int.emod_nonneg s (by omega)
  have hm2 : s % 65536 < 65536 := Int.emod_lt_of_pos s (by omega)
  have hv : bytesToNatBE (natToBytesBE 2 (s % 65536).toNat) = (s % 65536).toNat :=
    bytesToNatBE_natToBytesBE 2 _ (by omega)
  rw [natToBytesBE_length, hv]
  by_cases hpos : 0 ≤ s
  · have he : s % 65536 = s := Int.emod_eq_of_lt hpos (by omega)
    rw [if_pos]
    · omega
    · have : (s % 65536).toNat = s.toNat := by rw [he]
      rw [this]
      show 2 * s.toNat < 256 ^ 2
      omega
  · have he : s % 65536 = s + 65536 := by omega
    rw [if_neg]
    · omega
    · rw [he]
      show ¬(2 * (s + 65536).toNat < 256 ^ 2)
      omega

theorem serEntry_length (e : ℤ × List Bool) :
    (serEntry e).length = 3 + (e.2.length + 7) / 8 := by
  unfold serEntry
  rw [List.length_append, List.length_append, int16bytes_length,
    natToBytesBE_length, List.length_cons, List.length_nil]

theorem parseEntry_at (pre post : List ℕ) (e : ℤ × List Bool)
    (hs1 : -32768 ≤ e.1) (hs2 : e.1 < 32768)
    (hl1 : 1 ≤ e.2.length) (hl2 : e.2.length ≤ 255) :
    parseEntry (pre ++ serEntry e ++ post) pre.length
      = some (e, pre.length + (serEntry e).length) := by
  have hd : pre ++ serEntry e ++ post
      = pre ++ (int16bytes e.1 ++ ([e.2.length] ++
        (natToBytesBE ((e.2.length + 7) / 8) (bitsToNat e.2) ++ post))) := by
    unfold serEntry
    simp [List.append_assoc]
  unfold parseEntry
  have hlen : readU8 (pre ++ serEntry e ++ post) (pre.length + 2) = some e.2.length := by
    refine readU8_at _ (pre ++ int16bytes e.1)
      (natToBytesBE ((e.2.length + 7) / 8) (bitsToNat e.2) ++ post) e.2.length _ ?_
      (by rw [List.length_append, int16bytes_length])
    rw [hd]
    simp
  rw [hlen, Option.map_some']
  have hsym : sliceBytes (pre ++ serEntry e ++ post) pre.length 2 = int16bytes e.1 := by
    refine slice_at _ pre (int16bytes e.1) ([e.2.length] ++
      (natToBytesBE ((e.2.length + 7) / 8) (bitsToNat e.2) ++ post)) pre.length 2 ?_
      rfl (int16bytes_length e.1)
    rw [hd]
    simp
  have hcode : sliceBytes (pre ++ serEntry e ++ post) (pre.length + 3)
      ((e.2.length + 7) / 8) = natToBytesBE ((e.2.length + 7) / 8) (bitsToNat e.2) := by
    refine slice_at _ (pre ++ int16bytes e.1 ++ [e.2.length])
      (natToBytesBE ((e.2.length + 7) / 8) (bitsToNat e.2)) post _ _ ?_
      (by simp only [List.length_append, int16bytes_length, List.length_cons,
        List.length_nil]; try omega) (natToBytesBE_length ..)
    rw [hd]
    simp
  rw [hsym, hcode, bytesToIntBE_int16bytes e.1 hs1 hs2]
  have hval : bytesToNatBE (natToBytesBE ((e.2.length + 7) / 8) (bitsToNat e.2))
      = bitsToNat e.2 := by
    refine bytesToNatBE_natToBytesBE _ _ ?_
    have h1 := bitsToNat_lt e.2
    have h2 : 2 ^ e.2.length ≤ 256 ^ ((e.2.length + 7) / 8) := by
      have : 256 ^ ((e.2.length + 7) / 8) = 2 ^ (8 * ((e.2.length + 7) / 8)) := by
        rw [show (256 : ℕ) = 2 ^ 8 from rfl, ← pow_mul]
      rw [this]
      exact Nat.pow_le_pow_right (by omega) (by omega)
    omega
  rw [hval]
  have hzf : zfillBits e.2.length (natBits (bitsToNat e.2)) = e.2 :=
    zfill_natBits_bitsToNat e.2 (by intro hemp; rw [hemp] at hl1; simp at hl1)
  rw [hzf, serEntry_length]
  congr 2
  omega

theorem parseEntries_at (codes : List (ℤ × List Bool)) (pre post : List ℕ) (off : ℕ)
    (hb : ∀ e ∈ codes, -32768 ≤ e.1 ∧ e.1 < 32768 ∧ 1 ≤ e.2.length ∧ e.2.length ≤ 255)
    (hd : ∀ d : List ℕ, d = pre ++ codes.flatMap serEntry ++ post → True)
    (d : List ℕ) (hdef : d = pre ++ codes.flatMap serEntry ++ post)
    (hoff : pre.length = off) :
    parseEntries d off codes.length
      = some (codes, off + (codes.flatMap serEntry).length) := by
  clear hd
  induction codes generalizing pre off with
  | nil =>
    simp only [List.flatMap_nil, List.length_nil, Nat.add_zero]
    rfl
  | cons e rest ih =>
    rw [show (e :: rest).length = rest.length + 1 from rfl]
    unfold parseEntries
    have hbe := hb e (List.mem_cons_self ..)
    have hent : parseEntry d off = some (e, off + (serEntry e).length) := by
      rw [← hoff]
      refine (by rw [hdef, List.flatMap_cons]; simp [List.append_assoc] : d = pre ++ serEntry e ++ (rest.flatMap serEntry ++ post)) ▸
        parseEntry_at pre (rest.flatMap serEntry ++ post) e hbe.1 hbe.2.1 hbe.2.2.1 hbe.2.2.2
    rw [hent, Option.some_bind]
    have hrest : parseEntries d (off + (serEntry e).length) rest.length
        = some (rest, off + (serEntry e).length + (rest.flatMap serEntry).length) := by
      refine ih (pre ++ serEntry e) (off + (serEntry e).length)
        (fun x hx => hb x (List.mem_cons_of_mem _ hx)) ?_
        (by rw [List.length_append, hoff])
      rw [hdef, List.flatMap_cons]
      simp [List.append_assoc]
    rw [hrest, Option.map_some']
    rw [List.flatMap_cons, List.length_append]
    congr 2
    omega

/-- `deserialize(serialize(code))` restores the table exactly — leading
zero bits included — and reports the full serialized length. -/
theorem deserialize_serialize (codes : List (ℤ × List Bool)) (d : List ℕ)
    (h : serialize_huffman_table codes = some d) :
    deserialize_huffman_table d = some (codes, d.length) := by
  unfold serialize_huffman_table at h
  by_cases hc : codes.length < 2 ^ 16 ∧
      ∀ e ∈ codes, -32768 ≤ e.1 ∧ e.1 < 32768 ∧ 1 ≤ e.2.length ∧ e.2.length ≤ 255
  · rw [if_pos hc] at h
    have hdef : d = natToBytesBE 2 codes.length ++ codes.flatMap serEntry :=
      (Option.some.inj h).symm
    unfold deserialize_huffman_table
    have hnum : bytesToNatBE (sliceBytes d 0 2) = codes.length := by
      have hsl : sliceBytes d 0 2 = natToBytesBE 2 codes.length := by
        refine slice_at d [] (natToBytesBE 2 codes.length) (codes.flatMap serEntry)
          0 2 ?_ rfl (natToBytesBE_length ..)
        rw [hdef]
        rfl
      rw [hsl]
      exact bytesToNatBE_natToBytesBE 2 codes.length (by have := hc.1; omega)
    rw [hnum]
    have := parseEntries_at codes (natToBytesBE 2 codes.length) [] 2 hc.2
      (fun _ _ => trivial) d (by rw [hdef]; simp) (natToBytesBE_length ..)
    rw [this]
    congr 2
    rw [hdef, List.length_append, natToBytesBE_length]

  · rw [if_neg hc] at h
    exact absurd h (by simp)

/-! ### Structure of trees built by `build_huffman_tree` -/

/-- Shape invariant of every tree in the heap: leaves carry a symbol
and no children; internal nodes carry no symbol and two subtrees. -/
inductive Proper : HTree → Prop
  | leaf (s : ℤ) : Proper (.node (some s) .nil .nil)
  | internal (l r : HTree) : Proper l → Proper r → Proper (.node none l r)

/-- The symbols at the leaves, in left-to-right order. -/
def leafSyms : HTree → List ℤ
  | .nil => []
  | .node (some s) _ _ => [s]
  | .node none l r => leafSyms l ++ leafSyms r

theorem buildLoop_ok (s : Strategy) (hs : ValidStrategy s) :
    ∀ fuel pool, pool ≠ [] → pool.length ≤ fuel + 1 →
    (∀ e ∈ pool, Proper e.1) →
    ∃ t, buildLoop s fuel pool = some t ∧ Proper t ∧
      (pool.map (fun e => leafSyms e.1)).join.Perm (leafSyms t) := by
  intro fuel
  induction fuel with
  | zero =>
    intro pool hne hlen hp
    match pool with
    | [] => exact absurd rfl hne
    | [e] =>
      exact ⟨e.1, rfl, hp e (List.mem_cons_self ..), by simp⟩
    | a :: b :: rest => simp at hlen
  | succ m ih =>
    intro pool hne hlen hp
    match pool with
    | [] => exact absurd rfl hne
    | [e] =>
      exact ⟨e.1, rfl, hp e (List.mem_cons_self ..), by simp⟩
    | a :: b :: rest =>
      show ∃ t, (match s (a :: b :: rest) with
        | none => none
        | some (x, y, rest') =>
            buildLoop s m ((HTree.node none x.1 y.1, x.2 + y.2) :: rest')) = some t ∧ _
      cases hstrat : s (a :: b :: rest) with
      | none =>
        exact absurd hstrat (hs.2 _ (by simp))
      | some v =>
        obtain ⟨x, y, rest'⟩ := v
        have hperm : (a :: b :: rest).Perm (x :: y :: rest') := hs.1 _ _ _ _ hstrat
        have hmem : ∀ e ∈ x :: y :: rest', Proper e.1 := by
          intro e he
          exact hp e (hperm.mem_iff.mpr he)
        have hx : Proper x.1 := hmem x (List.mem_cons_self ..)
        have hy : Proper y.1 := hmem y (List.mem_cons_of_mem _ (List.mem_cons_self ..))
        have hlen' : ((HTree.node none x.1 y.1, x.2 + y.2) :: rest').length ≤ m + 1 := by
          have := hperm.length_eq
          simp only [List.length_cons] at *
          omega
        obtain ⟨t, ht, hpt, hjoin⟩ := ih ((HTree.node none x.1 y.1, x.2 + y.2) :: rest')
          (by simp) hlen'
          (by
            intro e he
            rcases List.mem_cons.mp he with rfl | he2
            · exact Proper.internal _ _ hx hy
            · exact hmem e (List.mem_cons_of_mem _ (List.mem_cons_of_mem _ he2)))
        refine ⟨t, ht, hpt, ?_⟩
        refine List.Perm.trans ?_ hjoin
        have h1 : ((a :: b :: rest).map (fun e => leafSyms e.1)).join.Perm
            (((x :: y :: rest').map (fun e => leafSyms e.1)).join) :=
          (hperm.map _).join
        refine h1.trans ?_
        simp only [List.map_cons, List.join_cons]
        rw [show leafSyms (HTree.node none x.1 y.1) = leafSyms x.1 ++ leafSyms y.1
          from rfl]
        simp [List.append_assoc]

theorem join_singletons (freq : List (ℤ × ℕ)) :
    (freq.map (fun e => [e.1])).join = freq.map Prod.fst := by
  induction freq with
  | nil => rfl
  | cons a rest ihf => simp [ihf]

theorem build_huffman_tree_ok (s : Strategy) (hs : ValidStrategy s)
    (freq : List (ℤ × ℕ)) (hne : freq ≠ []) :
    ∃ t, build_huffman_tree s freq = some t ∧ Proper t ∧
      (leafSyms t).Perm (freq.map Prod.fst) := by
  unfold build_huffman_tree
  rw [if_neg (by simp [hne])]
  have hinit : (freq.map (fun e => (HTree.node (some e.1) HTree.nil HTree.nil, e.2))).length
      ≤ freq.length + 1 := by simp
  obtain ⟨t, ht, hp, hj⟩ := buildLoop_ok s hs freq.length
    (freq.map (fun e => (HTree.node (some e.1) .nil .nil, e.2)))
    (by simp [hne]) hinit
    (by
      intro e he
      simp only [List.mem_map] at he
      obtain ⟨x, _, hx⟩ := he
      rw [← hx]
      exact Proper.leaf x.1)
  refine ⟨t, ht, hp, ?_⟩
  refine List.Perm.symm ?_
  refine List.Perm.trans ?_ hj
  have : (freq.map (fun e => (HTree.node (some e.1) HTree.nil HTree.nil, e.2))).map
      (fun e => leafSyms e.1) = freq.map (fun e => [e.1]) := by
    rw [List.map_map]
    rfl
  rw [this, join_singletons]

/-! ### Codes generated from a proper tree -/

theorem traverseCodes_fst (t : HTree) (hp : Proper t) (c : List Bool) :
    (traverseCodes t c).map Prod.fst = leafSyms t := by
  induction hp generalizing c with
  | leaf s => rfl
  | internal l r hl hr ihl ihr =>
    show ((traverseCodes l (c ++ [false])) ++ (traverseCodes r (c ++ [true]))).map
      Prod.fst = leafSyms l ++ leafSyms r
    rw [List.map_append, ihl, ihr]

theorem traverseCodes_nonempty (t : HTree) (hp : Proper t) (c : List Bool) :
    ∀ e ∈ traverseCodes t c, e.2 ≠ [] := by
  induction hp generalizing c with
  | leaf s =>
    intro e he
    simp only [traverseCodes, List.mem_singleton] at he
    subst he
    show (if c.isEmpty then [false] else c) ≠ []
    by_cases hc : c.isEmpty
    · rw [if_pos hc]
      simp
    · rw [if_neg hc]
      intro habs
      rw [habs] at hc
      exact hc rfl
  | internal l r hl hr ihl ihr =>
    intro e he
    rcases List.mem_append.mp he with h | h
    · exact ihl _ e h
    · exact ihr _ e h

theorem traverseCodes_extends (t : HTree) (hp : Proper t) (c : List Bool)
    (hc : c ≠ []) : ∀ e ∈ traverseCodes t c, c <+: e.2 := by
  induction hp generalizing c with
  | leaf s =>
    intro e he
    simp only [traverseCodes, List.mem_singleton] at he
    subst he
    have : ¬ c.isEmpty := by simp [hc]
    simp only [this, if_false, ite_false]
    exact List.prefix_refl c
  | internal l r hl hr ihl ihr =>
    intro e he
    rcases List.mem_append.mp he with h | h
    · exact ((List.prefix_append c [false]).trans (ihl _ (by simp) e h))
    · exact ((List.prefix_append c [true]).trans (ihr _ (by simp) e h))

/-- No two distinct entries of a generated code are prefix-related --
within one subtree by induction, across the two subtrees because the
codes diverge right after the shared path. -/
theorem traverseCodes_pairwise (t : HTree) (hp : Proper t) (c : List Bool) :
    (traverseCodes t c).Pairwise
      (fun e1 e2 => ¬ e1.2 <+: e2.2 ∧ ¬ e2.2 <+: e1.2) := by
  induction hp generalizing c with
  | leaf s => exact List.pairwise_singleton ..
  | internal l r hl hr ihl ihr =>
    show ((traverseCodes l (c ++ [false])) ++ (traverseCodes r (c ++ [true]))).Pairwise _
    rw [List.pairwise_append]
    refine ⟨ihl _, ihr _, ?_⟩
    intro e1 h1 e2 h2
    obtain ⟨u, hu⟩ := traverseCodes_extends l hl (c ++ [false]) (by simp) e1 h1
    obtain ⟨v, hv⟩ := traverseCodes_extends r hr (c ++ [true]) (by simp) e2 h2
    constructor
    · rintro ⟨z, hz⟩
      rw [← hu, ← hv] at hz
      simp only [List.append_assoc, List.cons_append, List.nil_append] at hz
      have := List.append_cancel_left hz
      simp at this
    · rintro ⟨z, hz⟩
      rw [← hu, ← hv] at hz
      simp only [List.append_assoc, List.cons_append, List.nil_append] at hz
      have := List.append_cancel_left hz
      simp at this

/-! ### Walking the rebuilt tree -/

/-- Follow a bit path downward (`nil` absorbs). -/
def follow (t : HTree) : List Bool → HTree
  | [] => t
  | b :: r => follow (childOf t b) r

def symAt : HTree → Option ℤ
  | .nil => none
  | .node σ _ _ => σ

/-- No symbol at this spot: missing child or internal node. -/
def ClearAt (u : HTree) : Prop := u = .nil ∨ ∃ l r, u = .node none l r

/-- Every nonempty proper prefix of `c` lands on a symbol-free spot. -/
def PathClear (t : HTree) (c : List Bool) : Prop :=
  ∀ p, p ≠ [] → p <+: c → p ≠ c → ClearAt (follow t p)

/-- The decode walk for `c` starting at `t` emits exactly `s`:
intermediate children are internal symbol-free nodes; the final child
carries `s`. -/
def Delivers (t : HTree) : List Bool → ℤ → Prop
  | [], _ => False
  | [b], s => ∃ l r, childOf t b = .node (some s) l r
  | b :: b2 :: rest, s =>
      ∃ l r, childOf t b = .node none l r ∧ Delivers (.node none l r) (b2 :: rest) s

theorem follow_nil (p : List Bool) : follow .nil p = .nil := by
  induction p with
  | nil => rfl
  | cons b q ih =>
    show follow (childOf .nil b) q = .nil
    rw [show childOf .nil b = .nil from rfl]
    exact ih

theorem follow_cons (t : HTree) (b : Bool) (q : List Bool) :
    follow t (b :: q) = follow (childOf t b) q := rfl

theorem follow_fresh (p : List Bool) (hp : p ≠ []) :
    follow (HTree.node none .nil .nil) p = .nil := by
  cases p with
  | nil => exact absurd rfl hp
  | cons b q =>
    rw [follow_cons]
    have : childOf (HTree.node none .nil .nil) b = .nil := by
      cases b <;> rfl
    rw [this, follow_nil]

theorem decodeLoop_delivers (root : HTree) (c : List Bool) (s : ℤ)
    (cur : HTree) (hd : Delivers cur c s) (rest : List Bool) :
    decodeLoop root (c ++ rest) cur
      = (decodeLoop root rest root).map (fun xs => s :: xs) := by
  induction c generalizing cur with
  | nil => exact absurd hd (by simp [Delivers])
  | cons b tail ih =>
    cases tail with
    | nil =>
      obtain ⟨l, r, hc⟩ := hd
      show decodeLoop root (b :: rest) cur = _
      simp only [decodeLoop, hc]
    | cons b2 t2 =>
      obtain ⟨l, r, hc, hrest⟩ := hd
      show decodeLoop root (b :: ((b2 :: t2) ++ rest)) cur = _
      simp only [decodeLoop, hc]
      exact ih _ hrest

theorem cons_prefix_iff {a b : Bool} {l₁ l₂ : List Bool} :
    (a :: l₁ <+: b :: l₂) ↔ a = b ∧ l₁ <+: l₂ := by
  constructor
  · rintro ⟨z, hz⟩
    simp only [List.cons_append] at hz
    cases hz
    exact ⟨rfl, z, rfl⟩
  · rintro ⟨rfl, z, hz⟩
    exact ⟨z, by rw [List.cons_append, hz]⟩

/-- `Delivers` in terms of `follow`. -/
theorem delivers_iff_follow (c : List Bool) (hc : c ≠ []) (t : HTree) (s : ℤ) :
    Delivers t c s ↔
      ((∀ p, p ≠ [] → p <+: c → p ≠ c → ∃ l r, follow t p = .node none l r) ∧
       (∃ l r, follow t c = .node (some s) l r)) := by
  induction c generalizing t with
  | nil => exact absurd rfl hc
  | cons b tail ih =>
    cases tail with
    | nil =>
      constructor
      · intro hd
        obtain ⟨l, r, hcb⟩ := hd
        refine ⟨?_, l, r, ?_⟩
        · intro p hp hpre hne
          cases p with
          | nil => exact absurd rfl hp
          | cons pb pq =>
            have hlen := hpre.length_le
            have hq : pq = [] := by
              cases pq
              · rfl
              · simp at hlen
            subst hq
            obtain ⟨rfl, _⟩ := cons_prefix_iff.mp hpre
            exact absurd rfl hne
        · rw [follow_cons, hcb]
          rfl
      · rintro ⟨_, l, r, hf⟩
        rw [follow_cons] at hf
        cases hcb : childOf t b with
        | nil =>
          rw [hcb, follow_nil] at hf
          exact absurd hf (by simp)
        | node σ cl cr =>
          rw [hcb] at hf
          have hf2 : HTree.node σ cl cr = HTree.node (some s) l r := hf
          cases hf2
          exact ⟨l, r, hcb⟩
    | cons b2 t2 =>
      constructor
      · intro hd
        obtain ⟨l, r, hcb, hrest⟩ := hd
        obtain ⟨hmid, hfin⟩ := (ih (by simp) (.node none l r) ).mp hrest
        refine ⟨?_, ?_⟩
        · intro p hp hpre hne
          cases p with
          | nil => exact absurd rfl hp
          | cons pb pq =>
            obtain ⟨rfl, hq⟩ := cons_prefix_iff.mp hpre
            cases pq with
            | nil =>
              rw [follow_cons, hcb]
              exact ⟨l, r, rfl⟩
            | cons x xs =>
              rw [follow_cons, hcb]
              exact hmid (x :: xs) (by simp) hq
                (by intro hxe; exact hne (by rw [hxe]))
        · rw [follow_cons, hcb]
          exact hfin
      · rintro ⟨hmid, hfin⟩
        have hb : ∃ l r, childOf t b = .node none l r := by
          have hone := hmid [b] (by simp) ⟨b2 :: t2, rfl⟩ (by simp)
          rw [follow_cons] at hone
          obtain ⟨l, r, hf⟩ := hone
          cases hcb : childOf t b with
          | nil =>
            rw [hcb, follow_nil] at hf
            exact absurd hf (by simp)
          | node σ cl cr =>
            rw [hcb] at hf
            have hf2 : HTree.node σ cl cr = HTree.node none l r := hf
            cases hf2
            exact ⟨l, r, rfl⟩
        obtain ⟨l, r, hcb⟩ := hb
        refine ⟨l, r, hcb, (ih (by simp) (.node none l r)).mpr ⟨?_, ?_⟩⟩
        · intro p hp hpre hne
          have := hmid (b :: p) (by simp) (cons_prefix_iff.mpr ⟨rfl, hpre⟩)
            (by intro hbe; cases hbe; exact hne rfl)
          rw [follow_cons, hcb] at this
          exact this
        · have := hfin
          rw [follow_cons, hcb] at this
          exact this

/-! ### Inserting a code modifies the tree only along its own path -/

theorem childOf_setChild_same (t : HTree) (ht : t ≠ .nil) (b : Bool) (c : HTree) :
    childOf (setChild t b c) b = c := by
  cases t with
  | nil => exact absurd rfl ht
  | node σ l r => cases b <;> rfl

theorem childOf_setChild_other (t : HTree) (ht : t ≠ .nil) (b b' : Bool)
    (hbb : b' ≠ b) (c : HTree) : childOf (setChild t b c) b' = childOf t b' := by
  cases t with
  | nil => exact absurd rfl ht
  | node σ l r => cases b <;> cases b' <;> first | rfl | exact absurd rfl hbb

theorem setChild_ne_nil (t : HTree) (ht : t ≠ .nil) (b : Bool) (c : HTree) :
    setChild t b c ≠ .nil := by
  cases t with
  | nil => exact absurd rfl ht
  | node σ l r => cases b <;> simp [setChild]

theorem symAt_setChild (t : HTree) (ht : t ≠ .nil) (b : Bool) (c : HTree) :
    symAt (setChild t b c) = symAt t := by
  cases t with
  | nil => exact absurd rfl ht
  | node σ l r => cases b <;> rfl

theorem insertCode_ne_nil (t : HTree) (ht : t ≠ .nil) (c : List Bool) (s : ℤ) :
    insertCode t c s ≠ .nil := by
  cases c with
  | nil => exact ht
  | cons b tail =>
    cases tail with
    | nil => exact setChild_ne_nil t ht b _
    | cons b2 t2 => exact setChild_ne_nil t ht b _

theorem symAt_insertCode (t : HTree) (ht : t ≠ .nil) (c : List Bool) (s : ℤ) :
    symAt (insertCode t c s) = symAt t := by
  cases c with
  | nil => rfl
  | cons b tail =>
    cases tail with
    | nil => exact symAt_setChild t ht b _
    | cons b2 t2 => exact symAt_setChild t ht b _

theorem node_of_ne_nil (t : HTree) (ht : t ≠ .nil) :
    ∃ σ l r, t = .node σ l r := by
  cases t with
  | nil => exact absurd rfl ht
  | node σ l r => exact ⟨σ, l, r, rfl⟩

/-- The child chosen by the insertion walk. -/
theorem insert_child_ne_nil (t : HTree) (b : Bool) :
    (match childOf t b with
     | .nil => HTree.node none .nil .nil
     | c => c) ≠ .nil := by
  cases hcb : childOf t b <;> simp

/-- `follow` at the inserted code itself: a freshly written leaf. -/
theorem follow_insert_self (c : List Bool) (t : HTree) (ht : t ≠ .nil) (s : ℤ)
    (hc : c ≠ []) :
    follow (insertCode t c s) c = .node (some s) .nil .nil := by
  induction c generalizing t with
  | nil => exact absurd rfl hc
  | cons b tail ih =>
    cases tail with
    | nil =>
      show follow (setChild t b (.node (some s) .nil .nil)) [b] = _
      rw [follow_cons, childOf_setChild_same t ht b]
      rfl
    | cons b2 t2 =>
      show follow (setChild t b _) (b :: (b2 :: t2)) = _
      rw [follow_cons, childOf_setChild_same t ht b]
      exact ih _ (insert_child_ne_nil t b) (by simp)

/-- `follow` at a proper prefix of the inserted code: a node whose
symbol is whatever was there before (`none` where a node was created). -/
theorem follow_insert_prefix (c : List Bool) (t : HTree) (ht : t ≠ .nil) (s : ℤ)
    (p : List Bool) (hp : p ≠ []) (hpre : p <+: c) (hne : p ≠ c) :
    ∃ l r, follow (insertCode t c s) p = .node (symAt (follow t p)) l r := by
  induction c generalizing t p with
  | nil =>
    obtain ⟨z, hz⟩ := hpre
    cases p
    · exact absurd rfl hp
    · simp at hz
  | cons b tail ih =>
    cases p with
    | nil => exact absurd rfl hp
    | cons pb pq =>
      obtain ⟨rfl, hq⟩ := cons_prefix_iff.mp hpre
      cases tail with
      | nil =>
        -- proper nonempty prefix of a singleton is impossible
        have hlen := hq.length_le
        have : pq = [] := by
          cases pq
          · rfl
          · simp at hlen
        subst this
        exact absurd rfl hne
      | cons b2 t2 =>
        cases pq with
        | nil =>
          -- p = [pb]: the node written at pb is the recursive insert result
          show ∃ l r, follow (setChild t pb _) [pb] = _
          rw [follow_cons, childOf_setChild_same t ht pb]
          have hchild := insert_child_ne_nil t pb
          have hresn := insertCode_ne_nil _ hchild (b2 :: t2) s
          obtain ⟨σ, l, r, hres⟩ := node_of_ne_nil _ hresn
          refine ⟨l, r, ?_⟩
          show insertCode _ (b2 :: t2) s = _
          rw [hres]
          have hsym : σ = symAt (follow t [pb]) := by
            have h1 : symAt (insertCode (match childOf t pb with
                | .nil => HTree.node none .nil .nil
                | c => c) (b2 :: t2) s) = symAt (match childOf t pb with
                | .nil => HTree.node none .nil .nil
                | c => c) := symAt_insertCode _ hchild _ s
            rw [hres] at h1
            rw [follow_cons]
            show σ = symAt (follow (childOf t pb) [])
            cases hcb : childOf t pb with
            | nil =>
              rw [hcb] at h1
              simp only at h1
              rw [follow_nil]
              exact h1.symm ▸ rfl
            | node σ2 l2 r2 =>
              rw [hcb] at h1
              simp only at h1
              exact h1.symm ▸ rfl
          rw [hsym]
        | cons x xs =>
          -- p = pb :: (x :: xs): descend
          show ∃ l r, follow (setChild t pb _) (pb :: (x :: xs)) = _
          rw [follow_cons, childOf_setChild_same t ht pb]
          have hchild := insert_child_ne_nil t pb
          obtain ⟨l, r, hfl⟩ := ih _ hchild (x :: xs) (by simp) hq
            (by intro he; exact hne (by rw [he]))
          refine ⟨l, r, ?_⟩
          rw [hfl]
          congr 2
          conv_rhs => rw [follow_cons]
          cases hcb : childOf t pb with
          | nil =>
            show follow (HTree.node none HTree.nil HTree.nil) (x :: xs)
              = follow HTree.nil (x :: xs)
            rw [follow_fresh _ (by simp), follow_nil]
          | node σ2 l2 r2 => rfl

/-- `follow` away from the inserted code (neither a prefix of it nor an
extension of it): unchanged. -/
theorem follow_insert_off (c : List Bool) (t : HTree) (ht : t ≠ .nil) (s : ℤ)
    (hc : c ≠ []) (p : List Bool) (h1 : ¬ p <+: c) (h2 : ¬ c <+: p) :
    follow (insertCode t c s) p = follow t p := by
  induction c generalizing t p with
  | nil => exact absurd rfl hc
  | cons b tail ih =>
    cases p with
    | nil => exact absurd (List.nil_prefix ..) h1
    | cons pb pq =>
      by_cases hbb : pb = b
      · subst hbb
        cases tail with
        | nil =>
          exact absurd (cons_prefix_iff.mpr ⟨rfl, List.nil_prefix ..⟩) h2
        | cons b2 t2 =>
          cases pq with
          | nil => exact absurd (cons_prefix_iff.mpr ⟨rfl, List.nil_prefix ..⟩) h1
          | cons x xs =>
            have hq1 : ¬ (x :: xs) <+: (b2 :: t2) := by
              intro h
              exact h1 (cons_prefix_iff.mpr ⟨rfl, h⟩)
            have hq2 : ¬ (b2 :: t2) <+: (x :: xs) := by
              intro h
              exact h2 (cons_prefix_iff.mpr ⟨rfl, h⟩)
            show follow (setChild t pb _) (pb :: (x :: xs)) = _
            rw [follow_cons, childOf_setChild_same t ht pb,
              ih _ (insert_child_ne_nil t pb) (by simp) _ hq1 hq2]
            conv_rhs => rw [follow_cons]
            cases hcb : childOf t pb with
            | nil =>
              show follow (HTree.node none HTree.nil HTree.nil) (x :: xs)
                = follow HTree.nil (x :: xs)
              rw [follow_fresh _ (by simp), follow_nil]
            | node σ2 l2 r2 => rfl
      · cases tail with
        | nil =>
          show follow (setChild t b _) (pb :: pq) = _
          rw [follow_cons, childOf_setChild_other t ht b pb hbb, follow_cons]
        | cons b2 t2 =>
          show follow (setChild t b _) (pb :: pq) = _
          rw [follow_cons, childOf_setChild_other t ht b pb hbb, follow_cons]

/-- Inserting a code over a clear path makes the tree deliver it. -/
theorem delivers_insert_self (t : HTree) (ht : t ≠ .nil) (c : List Bool)
    (hc : c ≠ []) (s : ℤ) (hclear : PathClear t c) :
    Delivers (insertCode t c s) c s := by
  rw [delivers_iff_follow c hc]
  constructor
  · intro p hp hpre hne
    obtain ⟨l, r, hf⟩ := follow_insert_prefix c t ht s p hp hpre hne
    rcases hclear p hp hpre hne with hnil | ⟨l2, r2, hnode⟩
    · rw [hnil] at hf
      exact ⟨l, r, by rw [hf]; rfl⟩
    · rw [hnode] at hf
      exact ⟨l, r, by rw [hf]; rfl⟩
  · rw [follow_insert_self c t ht s hc]
    exact ⟨.nil, .nil, rfl⟩

/-- Inserting an unrelated code preserves a delivery. -/
theorem delivers_insert_other (t : HTree) (ht : t ≠ .nil) (c : List Bool) (s : ℤ)
    (c' : List Bool) (s' : ℤ) (hc' : c' ≠ [])
    (h1 : ¬ c <+: c') (h2 : ¬ c' <+: c)
    (hd : Delivers t c s) : Delivers (insertCode t c' s') c s := by
  have hc : c ≠ [] := by
    intro he
    rw [he] at hd
    exact hd
  rw [delivers_iff_follow c hc] at hd ⊢
  obtain ⟨hmid, l, r, hfin⟩ := hd
  constructor
  · intro p hp hpre hne
    by_cases hpc : p <+: c'
    · have hpne : p ≠ c' := by
        intro he
        subst he
        exact h2 hpre
      obtain ⟨l3, r3, hf⟩ := follow_insert_prefix c' t ht s' p hp hpc hpne
      obtain ⟨l4, r4, hmf⟩ := hmid p hp hpre hne
      rw [hmf] at hf
      exact ⟨l3, r3, by rw [hf]; rfl⟩
    · by_cases hcp : c' <+: p
      · exact absurd (hcp.trans hpre) h2
      · rw [follow_insert_off c' t ht s' hc' p hpc hcp]
        exact hmid p hp hpre hne
  · rw [follow_insert_off c' t ht s' hc' c h1 h2]
    exact ⟨l, r, hfin⟩

/-- Inserting a code that is not a prefix of `c` keeps `c`'s path clear. -/
theorem pathClear_insert (t : HTree) (ht : t ≠ .nil) (c : List Bool)
    (c' : List Bool) (s' : ℤ) (hc' : c' ≠ []) (h2 : ¬ c' <+: c)
    (hclear : PathClear t c) : PathClear (insertCode t c' s') c := by
  intro p hp hpre hne
  by_cases hpc : p <+: c'
  · have hpne : p ≠ c' := by
      intro he
      subst he
      exact h2 hpre
    obtain ⟨l3, r3, hf⟩ := follow_insert_prefix c' t ht s' p hp hpc hpne
    rcases hclear p hp hpre hne with hnil | ⟨l2, r2, hnode⟩
    · rw [hnil] at hf
      exact Or.inr ⟨l3, r3, by rw [hf]; rfl⟩
    · rw [hnode] at hf
      exact Or.inr ⟨l3, r3, by rw [hf]; rfl⟩
  · by_cases hcp : c' <+: p
    · exact absurd (hcp.trans hpre) h2
    · rw [follow_insert_off c' t ht s' hc' p hpc hcp]
      exact hclear p hp hpre hne

theorem delivers_foldl_insert (codes : List (ℤ × List Bool)) (t : HTree)
    (ht : t ≠ .nil) (c : List Bool) (s : ℤ)
    (hinc : ∀ e ∈ codes, e.2 ≠ [] ∧ ¬ c <+: e.2 ∧ ¬ e.2 <+: c)
    (hd : Delivers t c s) :
    Delivers (codes.foldl (fun t e => insertCode t e.2 e.1) t) c s := by
  induction codes generalizing t with
  | nil => exact hd
  | cons e rest ih =>
    rw [List.foldl_cons]
    have he := hinc e (List.mem_cons_self ..)
    exact ih _ (insertCode_ne_nil t ht e.2 e.1)
      (fun x hx => hinc x (List.mem_cons_of_mem _ hx))
      (delivers_insert_other t ht c s e.2 e.1 he.1 he.2.1 he.2.2 hd)

theorem rebuild_delivers_aux (codes : List (ℤ × List Bool)) (t : HTree)
    (ht : t ≠ .nil)
    (hne : ∀ e ∈ codes, e.2 ≠ [])
    (hclear : ∀ e ∈ codes, PathClear t e.2)
    (hpw : codes.Pairwise (fun e1 e2 => ¬ e1.2 <+: e2.2 ∧ ¬ e2.2 <+: e1.2)) :
    ∀ e ∈ codes,
      Delivers (codes.foldl (fun t e => insertCode t e.2 e.1) t) e.2 e.1 := by
  induction codes generalizing t with
  | nil =>
    intro e he
    simp at he
  | cons e0 rest ih =>
    rw [List.pairwise_cons] at hpw
    intro e he
    rw [List.foldl_cons]
    have ht' := insertCode_ne_nil t ht e0.2 e0.1
    rcases List.mem_cons.mp he with rfl | hrest
    · refine delivers_foldl_insert rest _ ht' e.2 e.1 ?_ ?_
      · intro x hx
        have hx2 := hpw.1 x hx
        exact ⟨hne x (List.mem_cons_of_mem _ hx), hx2.1, hx2.2⟩
      · exact delivers_insert_self t ht e.2 (hne e (List.mem_cons_self ..)) e.1
          (hclear e (List.mem_cons_self ..))
    · refine ih _ ht' (fun x hx => hne x (List.mem_cons_of_mem _ hx)) ?_ hpw.2 e hrest
      intro x hx
      exact pathClear_insert t ht x.2 e0.2 e0.1
        (hne e0 (List.mem_cons_self ..)) (hpw.1 x hx).1
        (hclear x (List.mem_cons_of_mem _ hx))

/-- The rebuilt tree delivers every entry of a nonempty, mutually
prefix-free code table. -/
theorem rebuild_delivers (codes : List (ℤ × List Bool))
    (hne : ∀ e ∈ codes, e.2 ≠ [])
    (hpw : codes.Pairwise (fun e1 e2 => ¬ e1.2 <+: e2.2 ∧ ¬ e2.2 <+: e1.2)) :
    ∀ e ∈ codes, Delivers (rebuildTree codes) e.2 e.1 := by
  refine rebuild_delivers_aux codes (.node none .nil .nil) (by simp) hne ?_ hpw
  intro e _ p hp _ _
  exact Or.inl (follow_fresh p hp)

theorem foldl_insert_shape (codes : List (ℤ × List Bool)) :
    ∀ t, t ≠ HTree.nil → symAt t = none →
    ∃ l r, codes.foldl (fun t e => insertCode t e.2 e.1) t = .node none l r := by
  induction codes with
  | nil =>
    intro t ht hsym
    obtain ⟨σ, l, r, rfl⟩ := node_of_ne_nil t ht
    refine ⟨l, r, ?_⟩
    rw [List.foldl_nil]
    have : σ = none := hsym
    rw [this]
  | cons e rest ih =>
    intro t ht hsym
    rw [List.foldl_cons]
    refine ih _ (insertCode_ne_nil t ht e.2 e.1) ?_
    rw [symAt_insertCode t ht e.2 e.1]
    exact hsym

theorem rebuildTree_shape (codes : List (ℤ × List Bool)) :
    ∃ l r, rebuildTree codes = .node none l r :=
  foldl_insert_shape codes _ (by simp) rfl

/-- Decoding the concatenated codewords of a stream with a tree that
delivers every code restores the stream. -/
theorem decodeLoop_encode (codes : List (ℤ × List Bool)) (root : HTree)
    (hdel : ∀ e ∈ codes, Delivers root e.2 e.1) :
    ∀ stream bits, encode_huffman stream codes = some bits →
    decodeLoop root bits root = some stream := by
  intro stream
  induction stream with
  | nil =>
    intro bits h
    unfold encode_huffman at h
    rw [List.mapM_nil] at h
    simp at h
    rw [h]
    rfl
  | cons x xs ih =>
    intro bits h
    unfold encode_huffman at h
    rw [List.mapM_cons] at h
    cases hl : lookupCode codes x with
    | none =>
      rw [hl] at h
      exact absurd h (by simp)
    | some cx =>
      rw [hl] at h
      cases hm : xs.mapM (lookupCode codes) with
      | none =>
        rw [hm] at h
        exact absurd h (by simp)
      | some ys =>
        rw [hm] at h
        have h2 : some ((cx :: ys).join) = some bits := h
        have hbits : bits = cx ++ ys.join := by
          have h3 := Option.some.inj h2
          rw [← h3]
          rfl
        have hmem : (x, cx) ∈ codes := by
          unfold lookupCode at hl
          cases hf : codes.find? (fun e => e.1 == x) with
          | none =>
            rw [hf] at hl
            simp at hl
          | some e =>
            rw [hf] at hl
            simp only [Option.map_some', Option.some.injEq] at hl
            have he1 : e ∈ codes := List.mem_of_find?_eq_some hf
            have he2 : e.1 = x := by
              have := List.find?_some hf
              simpa using this
            have : e = (x, cx) := by
              obtain ⟨a, b⟩ := e
              simp only at he2 hl
              rw [he2, hl]
            rwa [← this]
        have hd := hdel (x, cx) hmem
        rw [hbits, decodeLoop_delivers root cx x root hd ys.join]
        have hxs : encode_huffman xs codes = some ys.join := by
          unfold encode_huffman
          rw [hm]
          rfl
        rw [ih _ hxs]
        rfl

/-! ### Histogram, lookup totality, byte-packing round trip -/

theorem counterKeys_aux (l : List ℤ) (acc : List ℤ) (hacc : acc.Nodup) :
    (l.foldl (fun acc x => if x ∈ acc then acc else acc ++ [x]) acc).Nodup ∧
    (∀ y, y ∈ l.foldl (fun acc x => if x ∈ acc then acc else acc ++ [x]) acc ↔
      y ∈ acc ∨ y ∈ l) := by
  induction l generalizing acc with
  | nil =>
    exact ⟨hacc, fun y => by simp⟩
  | cons x xs ih =>
    rw [List.foldl_cons]
    by_cases hx : x ∈ acc
    · rw [if_pos hx]
      obtain ⟨h1, h2⟩ := ih acc hacc
      refine ⟨h1, fun y => ?_⟩
      rw [h2 y]
      constructor
      · rintro (h | h)
        · exact Or.inl h
        · exact Or.inr (List.mem_cons_of_mem _ h)
      · rintro (h | h)
        · exact Or.inl h
        · rcases List.mem_cons.mp h with rfl | h
          · exact Or.inl hx
          · exact Or.inr h
    · rw [if_neg hx]
      obtain ⟨h1, h2⟩ := ih (acc ++ [x])
        (by
          rw [List.nodup_append]
          exact ⟨hacc, List.nodup_singleton x, by simpa using hx⟩)
      refine ⟨h1, fun y => ?_⟩
      rw [h2 y]
      simp only [List.mem_append, List.mem_singleton, List.mem_cons]
      tauto

theorem counterKeys_nodup (l : List ℤ) : (counterKeys l).Nodup :=
  (counterKeys_aux l [] List.nodup_nil).1

theorem mem_counterKeys (l : List ℤ) (y : ℤ) : y ∈ counterKeys l ↔ y ∈ l := by
  have := (counterKeys_aux l [] List.nodup_nil).2 y
  unfold counterKeys
  rw [this]
  simp

theorem counter_fst (l : List ℤ) : (counter l).map Prod.fst = counterKeys l := by
  unfold counter
  rw [List.map_map]
  exact List.map_id ..

theorem counter_ne_nil (l : List ℤ) (hl : l ≠ []) : counter l ≠ [] := by
  unfold counter
  intro h
  have h2 : counterKeys l = [] := by
    cases hck : counterKeys l
    · rfl
    · rw [hck] at h
      simp at h
  cases l with
  | nil => exact hl rfl
  | cons x xs =>
    have : x ∈ counterKeys (x :: xs) := (mem_counterKeys _ x).mpr (List.mem_cons_self ..)
    rw [h2] at this
    simp at this

theorem lookupCode_total (codes : List (ℤ × List Bool)) (x : ℤ)
    (hx : x ∈ codes.map Prod.fst) : ∃ c, lookupCode codes x = some c := by
  unfold lookupCode
  cases hf : codes.find? (fun e => e.1 == x) with
  | some e => exact ⟨e.2, rfl⟩
  | none =>
    exfalso
    obtain ⟨e, he, hfst⟩ := List.mem_map.mp hx
    have := List.find?_eq_none.mp hf e he
    simp at this
    exact this hfst

theorem encode_huffman_total (data : List ℤ) (codes : List (ℤ × List Bool))
    (h : ∀ x ∈ data, ∃ c, lookupCode codes x = some c) :
    ∃ bits, encode_huffman data codes = some bits := by
  unfold encode_huffman
  suffices hs : ∃ ys, data.mapM (lookupCode codes) = some ys by
    obtain ⟨ys, hys⟩ := hs
    exact ⟨ys.join, by rw [hys]; rfl⟩
  induction data with
  | nil => exact ⟨[], rfl⟩
  | cons x xs ih =>
    obtain ⟨c, hc⟩ := h x (List.mem_cons_self ..)
    obtain ⟨ys, hys⟩ := ih (fun y hy => h y (List.mem_cons_of_mem _ hy))
    refine ⟨c :: ys, ?_⟩
    rw [List.mapM_cons, hc, hys]
    rfl

theorem bitsToBytes_flatMap_bounded (n : ℕ) : ∀ l : List Bool, l.length ≤ n →
    l.length % 8 = 0 → (bitsToBytes l).flatMap byteBits = l := by
  induction n with
  | zero =>
    intro l hl _
    have : l = [] := List.length_eq_zero.mp (by omega)
    subst this
    rw [bitsToBytes]
    rfl
  | succ m ih =>
    intro l hl h
    cases l with
    | nil =>
      rw [bitsToBytes]
      rfl
    | cons b rest =>
      have hlen : 8 ≤ (b :: rest).length := by
        rw [List.length_cons] at h ⊢
        omega
      rw [bitsToBytes, List.flatMap_cons]
      have hlen8 : ((b :: rest).take 8).length = 8 := by
        rw [List.length_take]
        omega
      have hbb : byteBits (bitsToNat ((b :: rest).take 8)) = (b :: rest).take 8 := by
        have h0 := widthBits_bitsToNat ((b :: rest).take 8)
        rw [hlen8] at h0
        exact h0
      rw [hbb]
      have hdrop : ((b :: rest).drop 8).length % 8 = 0 := by
        rw [List.length_drop]
        omega
      rw [ih ((b :: rest).drop 8) (by rw [List.length_drop]; simp only [List.length_cons] at hl ⊢; omega) hdrop]
      exact List.take_append_drop ..

theorem bitsToBytes_flatMap (l : List Bool) (h : l.length % 8 = 0) :
    (bitsToBytes l).flatMap byteBits = l :=
  bitsToBytes_flatMap_bounded l.length l (le_refl _) h

/-- The byte layer is transparent: packing the padded bit string into
bytes and re-reading the first `num_bits` bits restores it. -/
theorem bytes_to_bitstring_of_bitstring_to_bytes (bits : List Bool) :
    bytes_to_bitstring (bitstring_to_bytes bits).1 bits.length = bits := by
  unfold bitstring_to_bytes bytes_to_bitstring
  have hpadlen : (bits ++ List.replicate ((8 - bits.length % 8) % 8) false).length % 8
      = 0 := by
    rw [List.length_append, List.length_replicate]
    omega
  rw [bitsToBytes_flatMap _ hpadlen]
  exact List.take_left' rfl

/-! ## Encoder and decoder pipelines (`encode.py` / `decode.py`)

The forward and inverse DCT (`dct2d`/`idct2d` via `scipy`), the only
floating-point stages, are abstracted as explicit function parameters
from an integer block to a rational matrix; every theorem quantifies
over them, so it holds for whatever values the float code produces. -/

/-- `pad_image`: edge replication up to the block boundary. -/
def pad_image (h w : ℕ) (px : ℕ → ℕ → ℤ) : ℕ → ℕ → ℤ :=
  fun i j => px (min i (h - 1)) (min j (w - 1))

/-- Padded dimension as computed by `decode.py`:
`((n + block_size - 1) // block_size) * block_size`. -/
def padDim (n B : ℕ) : ℕ := ((n + B - 1) / B) * B

/-- The raster-scan block grid of `block_dct_encode`. -/
def blockGrid (Hp Wp B : ℕ) : List (ℕ × ℕ) :=
  (List.range (Hp / B)).flatMap
    (fun bi => (List.range (Wp / B)).map (fun bj => (bi, bj)))

/-- One padded block. -/
def blockAt (px : ℕ → ℕ → ℤ) (B bi bj : ℕ) : ℕ → ℕ → ℤ :=
  fun i j => px (bi * B + i) (bj * B + j)

/-- `block_dct_encode`: per block in raster order, (abstracted) float
DCT then quantization to int16. -/
def block_dct_encode (fdct : (ℕ → ℕ → ℤ) → (ℕ → ℕ → ℚ)) (px : ℕ → ℕ → ℤ)
    (Q : ℕ → ℕ → ℕ) (Hp Wp B : ℕ) : List (ℕ → ℕ → ℤ) :=
  (blockGrid Hp Wp B).map (fun p => quantize (fdct (blockAt px B p.1 p.2)) Q)

/-- Row-major flattening of the (always 8×8) quantization matrix,
as packed into the frame. -/
def quantFlat (Q : ℕ → ℕ → ℕ) : List ℕ :=
  (List.range 8).flatMap (fun i => (List.range 8).map (fun j => Q i j))

/-- `encode_image` with the file/DICOM I/O stripped: pad, block
DCT+quantize, zig-zag, Huffman, pack.  `strat` abstracts the heap
order, `fdct` the float DCT.  (`create_quantization_matrix` always
builds an 8×8 matrix; the pipeline is exercised with `B = 8`.) -/
def encode_image (strat : Strategy) (fdct : (ℕ → ℕ → ℤ) → (ℕ → ℕ → ℚ))
    (h w bd quality B : ℕ) (px : ℕ → ℕ → ℤ) : Option (List ℕ) :=
  (encode_coefficients strat
      ((block_dct_encode fdct (pad_image h w px)
          (create_quantization_matrix quality bd)
          (h + (B - h % B) % B) (w + (B - w % B) % B) B).map
        (zigzag_flatten B))).bind
    fun ebn =>
      pack_bitstream w h bd B quality
        (quantFlat (create_quantization_matrix quality bd))
        ebn.2.1 ebn.1 ebn.2.2

/-- The decoded image: dimensions and pixel values. -/
structure Decoded where
  height : ℕ
  width : ℕ
  px : ℕ → ℕ → ℤ

/-- `np.clip(x, 0, m).astype(np.int32)`: clip then truncate (equal to
the floor on the clipped, non-negative value). -/
def clipCast (m : ℕ) (x : ℚ) : ℤ := Int.floor (min (max x 0) (m : ℚ))

/-- The block-reshaping loop of `decode_image`: a silently-truncating
list slice per block, then `zigzag_unflatten` (which raises on a short
slice). -/
def decodeBlocks (coeffs : List ℤ) (numBlocks B : ℕ) :
    Option (List (ℕ → ℕ → ℤ)) :=
  (List.range numBlocks).mapM
    (fun i => zigzag_unflatten ((coeffs.drop (i * (B * B))).take (B * B)) B)

/-- `block_dct_decode`: dequantize, (abstracted) inverse DCT, place the
blocks on the padded canvas in raster order. -/
def block_dct_decode (fidct : (ℕ → ℕ → ℤ) → (ℕ → ℕ → ℚ))
    (blocks : List (ℕ → ℕ → ℤ)) (Q : ℕ → ℕ → ℕ) (Wp B : ℕ) : ℕ → ℕ → ℚ :=
  fun i j =>
    fidct (dequantize (blocks.getD (i / B * (Wp / B) + j / B) (fun _ _ => 0)) Q)
      (i % B) (j % B)

/-- `decode_image` with the file I/O stripped: unpack, Huffman decode,
unflatten, dequantize + inverse DCT, crop to `(height, width)`, clip to
`[0, 2^bit_depth − 1]`.  `none` models every raised exception
(including the `ZeroDivisionError` when `block_size = 0`). -/
def decode_image (fidct : (ℕ → ℕ → ℤ) → (ℕ → ℕ → ℚ)) (d : List ℕ) :
    Option Decoded :=
  (unpack_bitstream d).bind fun fr =>
  if fr.block_size = 0 then none
  else
    (decode_coefficients fr.encoded_data fr.huffman_table fr.num_bits
        (padDim fr.height fr.block_size / fr.block_size *
          (padDim fr.width fr.block_size / fr.block_size) *
          fr.block_size * fr.block_size)).bind
      fun coeffs =>
        (decodeBlocks coeffs
            (padDim fr.height fr.block_size / fr.block_size *
              (padDim fr.width fr.block_size / fr.block_size))
            fr.block_size).map
          fun blocks =>
            ⟨fr.height, fr.width,
             fun i j =>
               clipCast (2 ^ fr.bit_depth - 1)
                 (block_dct_decode fidct blocks
                   (fun a b => fr.quant_matrix.getD (a * fr.block_size + b) 0)
                   (padDim fr.width fr.block_size) fr.block_size i j)⟩

/-! ### Round-trip assembly lemmas -/

theorem clipCast_nonneg (m : ℕ) (x : ℚ) : 0 ≤ clipCast m x := by
  unfold clipCast
  rw [Int.le_floor]
  push_cast
  rw [le_min_iff]
  constructor
  · exact le_max_right x 0
  · exact Nat.cast_nonneg m

theorem clipCast_le (m : ℕ) (x : ℚ) : clipCast m x ≤ m := by
  unfold clipCast
  have h1 : min (max x 0) (m : ℚ) ≤ (m : ℚ) := min_le_right _ _
  calc Int.floor (min (max x 0) (m : ℚ)) ≤ Int.floor ((m : ℚ)) := Int.floor_le_floor h1
    _ = (m : ℤ) := Int.floor_natCast m

theorem quantFlat_length (Q : ℕ → ℕ → ℕ) : (quantFlat Q).length = 64 := by
  unfold quantFlat
  rw [List.length_flatMap]
  have : (List.range 8).map (List.length ∘ fun i => (List.range 8).map (fun j => Q i j))
      = List.replicate 8 8 := by
    rw [List.eq_replicate_iff]
    constructor
    · simp
    · intro b hb
      simp only [List.mem_map, Function.comp] at hb
      obtain ⟨i, _, hi⟩ := hb
      simp at hi
      omega
  rw [this, List.sum_replicate, smul_eq_mul]

theorem create_quantization_matrix_le (quality bd i j : ℕ) :
    create_quantization_matrix quality bd i j ≤ 65535 := by
  unfold create_quantization_matrix npClip
  have h : min (65535 : ℤ)
      (max 1 (Int.floor (((baseEntry i j : ℚ) * qualScale quality * bitScale bd + 50)
        / 100))) ≤ 65535 := min_le_left _ _
  omega

theorem quantFlat_lt (quality bd : ℕ) :
    ∀ v ∈ quantFlat (create_quantization_matrix quality bd), v < 2 ^ 16 := by
  intro v hv
  unfold quantFlat at hv
  rw [List.mem_flatMap] at hv
  obtain ⟨i, _, hv2⟩ := hv
  rw [List.mem_map] at hv2
  obtain ⟨j, _, rfl⟩ := hv2
  have := create_quantization_matrix_le quality bd i j
  omega

theorem zigzag_flatten_length (B : ℕ) (M : ℕ → ℕ → ℤ) :
    (zigzag_flatten B M).length = B * B := by
  unfold zigzag_flatten
  rw [List.length_map, length_zigzag_order]

theorem blockGrid_length (Hp Wp B : ℕ) :
    (blockGrid Hp Wp B).length = Hp / B * (Wp / B) := by
  unfold blockGrid
  rw [List.length_flatMap]
  have : (List.range (Hp / B)).map
      (List.length ∘ fun bi => (List.range (Wp / B)).map (fun bj => (bi, bj)))
      = List.replicate (Hp / B) (Wp / B) := by
    rw [List.eq_replicate_iff]
    constructor
    · simp
    · intro b hb
      simp only [List.mem_map, Function.comp] at hb
      obtain ⟨i, _, hi⟩ := hb
      simp at hi
      omega
  rw [this, List.sum_replicate, smul_eq_mul]

theorem join_map_zigzag_length (B : ℕ) (blocks : List (ℕ → ℕ → ℤ)) :
    ((blocks.map (zigzag_flatten B)).join).length = blocks.length * (B * B) := by
  induction blocks with
  | nil => simp
  | cons b rest ih =>
    rw [List.map_cons]
    rw [show (zigzag_flatten B b :: List.map (zigzag_flatten B) rest).join
      = zigzag_flatten B b ++ (List.map (zigzag_flatten B) rest).join from rfl]
    rw [List.length_append, ih, zigzag_flatten_length, List.length_cons]
    ring

theorem mapM_total {α β : Type} (f : α → Option β) (l : List α)
    (h : ∀ x ∈ l, ∃ y, f x = some y) : ∃ ys, l.mapM f = some ys := by
  induction l with
  | nil => exact ⟨[], rfl⟩
  | cons x xs ih =>
    obtain ⟨y, hy⟩ := h x (List.mem_cons_self ..)
    obtain ⟨ys, hys⟩ := ih (fun z hz => h z (List.mem_cons_of_mem _ hz))
    refine ⟨y :: ys, ?_⟩
    rw [List.mapM_cons, hy, hys]
    rfl

theorem decodeBlocks_total (coeffs : List ℤ) (numBlocks : ℕ)
    (hlen : coeffs.length = numBlocks * 64) :
    ∃ blocks, decodeBlocks coeffs numBlocks 8 = some blocks := by
  unfold decodeBlocks
  refine mapM_total _ _ ?_
  intro i hi
  rw [List.mem_range] at hi
  have hslice : ((coeffs.drop (i * (8 * 8))).take (8 * 8)).length = 64 := by
    rw [List.length_take, List.length_drop, hlen]
    have : i * (8 * 8) + 64 ≤ numBlocks * 64 := by
      have : (i + 1) * 64 ≤ numBlocks * 64 := Nat.mul_le_mul_right 64 hi
      omega
    omega
  unfold zigzag_unflatten
  rw [if_pos]
  · exact ⟨_, rfl⟩
  · rw [hslice, length_zigzag_order]

theorem padDim_eight (n : ℕ) : padDim n 8 = n + (8 - n % 8) % 8 := by
  unfold padDim
  omega

/-- Central round trip: a frame produced by `encode_image` (with any
valid heap strategy and any float DCT values) decodes to an image of
exactly the original dimensions with every pixel clipped into
`[0, 2^bit_depth − 1]`, for any float inverse-DCT values. -/
theorem decode_encode_aux (strat : Strategy) (hstrat : ValidStrategy strat)
    (fdct fidct : (ℕ → ℕ → ℤ) → (ℕ → ℕ → ℚ))
    (h w bd quality : ℕ) (px : ℕ → ℕ → ℤ)
    (hh1 : 1 ≤ h) (hw1 : 1 ≤ w)
    (F : List ℕ) (henc : encode_image strat fdct h w bd quality 8 px = some F) :
    ∃ out, decode_image fidct F = some out ∧ out.height = h ∧ out.width = w ∧
      ∀ i j : ℕ, 0 ≤ out.px i j ∧ out.px i j ≤ ((2 ^ bd - 1 : ℕ) : ℤ) := by
  unfold encode_image at henc
  cases hec : encode_coefficients strat
      ((block_dct_encode fdct (pad_image h w px)
          (create_quantization_matrix quality bd)
          (h + (8 - h % 8) % 8) (w + (8 - w % 8) % 8) 8).map
        (zigzag_flatten 8)) with
  | none =>
    rw [hec] at henc
    exact absurd henc (by simp)
  | some ebn =>
    rw [hec, Option.some_bind] at henc
    -- unpack the encode_coefficients stages
    unfold encode_coefficients at hec
    cases hbits : encode_huffman
        ((block_dct_encode fdct (pad_image h w px)
            (create_quantization_matrix quality bd)
            (h + (8 - h % 8) % 8) (w + (8 - w % 8) % 8) 8).map
          (zigzag_flatten 8)).join
        (generate_huffman_codes (build_huffman_tree strat
          (counter ((block_dct_encode fdct (pad_image h w px)
              (create_quantization_matrix quality bd)
              (h + (8 - h % 8) % 8) (w + (8 - w % 8) % 8) 8).map
            (zigzag_flatten 8)).join))) with
    | none =>
      rw [hbits] at hec
      exact absurd hec (by simp)
    | some bits =>
      rw [hbits, Option.some_bind] at hec
      cases htab : serialize_huffman_table
          (generate_huffman_codes (build_huffman_tree strat
            (counter ((block_dct_encode fdct (pad_image h w px)
                (create_quantization_matrix quality bd)
                (h + (8 - h % 8) % 8) (w + (8 - w % 8) % 8) 8).map
              (zigzag_flatten 8)).join))) with
      | none =>
        rw [htab] at hec
        exact absurd hec (by simp)
      | some table =>
        rw [htab, Option.map_some'] at hec
        have hebn := (Option.some.inj hec).symm
        subst hebn
        -- shorthands
        generalize hQdef : create_quantization_matrix quality bd = Q at *
        generalize hstreamdef : ((block_dct_encode fdct (pad_image h w px) Q
            (h + (8 - h % 8) % 8) (w + (8 - w % 8) % 8) 8).map
          (zigzag_flatten 8)).join = stream at *
        generalize hcodesdef : generate_huffman_codes (build_huffman_tree strat
          (counter stream)) = codes at *
        -- the packed frame
        obtain ⟨hF, hw16, hh16, hbd8, hbs8, hq8, hql16, hqv16, htl16, hnb32, hpl32⟩ :=
          pack_eq_frameCore w h bd 8 quality (quantFlat Q) table
            (bitstring_to_bytes bits).1 bits.length F henc
        -- stream length
        have hblen : (block_dct_encode fdct (pad_image h w px) Q
            (h + (8 - h % 8) % 8) (w + (8 - w % 8) % 8) 8).length
            = (h + (8 - h % 8) % 8) / 8 * ((w + (8 - w % 8) % 8) / 8) := by
          unfold block_dct_encode
          rw [List.length_map, blockGrid_length]
        have hstreamlen : stream.length
            = (h + (8 - h % 8) % 8) / 8 * ((w + (8 - w % 8) % 8) / 8) * 64 := by
          rw [← hstreamdef, join_map_zigzag_length, hblen]
        have hstream_ne : stream ≠ [] := by
          intro he
          rw [he] at hstreamlen
          simp at hstreamlen
          have h8 : 8 ≤ h + (8 - h % 8) % 8 := by omega
          have w8 : 8 ≤ w + (8 - w % 8) % 8 := by omega
          rcases hstreamlen with hl | hl <;> omega
        -- the built code table
        obtain ⟨t, hbuild, hproper, hsyms⟩ := build_huffman_tree_ok strat hstrat
          (counter stream) (counter_ne_nil stream hstream_ne)
        have hcodes_eq : codes = traverseCodes t [] := by
          rw [← hcodesdef, hbuild]
          rfl
        have hcodes_fst : codes.map Prod.fst = leafSyms t := by
          rw [hcodes_eq]
          exact traverseCodes_fst t hproper []
        have hcodes_ne : ∀ e ∈ codes, e.2 ≠ [] := by
          rw [hcodes_eq]
          exact traverseCodes_nonempty t hproper []
        have hcodes_pw : codes.Pairwise
            (fun e1 e2 => ¬ e1.2 <+: e2.2 ∧ ¬ e2.2 <+: e1.2) := by
          rw [hcodes_eq]
          exact traverseCodes_pairwise t hproper []
        have hdel := rebuild_delivers codes hcodes_ne hcodes_pw
        -- deserialization round trip
        have hde := deserialize_serialize codes table htab
        -- decode
        have hqflen : (quantFlat Q).length = 8 * 8 := by
          rw [quantFlat_length]
        have hunpack := unpack_frameCore_append w h bd 8 quality (quantFlat Q) table
          bits.length (bitstring_to_bytes bits).1.length (bitstring_to_bytes bits).1
          hw16 hh16 hbd8 hbs8 hq8 hql16 hqv16 htl16 hnb32 hpl32 hqflen
        rw [List.take_length] at hunpack
        rw [← hF] at hunpack
        unfold decode_image
        rw [hunpack, Option.some_bind]
        rw [if_neg (by simp)]
        -- the Huffman decode
        have hbits2 : bytes_to_bitstring (bitstring_to_bytes bits).1 bits.length
            = bits := bytes_to_bitstring_of_bitstring_to_bytes bits
        obtain ⟨lr, rr, hroot⟩ := rebuildTree_shape codes
        have hdec : decode_huffman bits (rebuildTree codes) = some stream := by
          rw [hroot]
          show decodeLoop _ bits _ = some stream
          rw [← hroot]
          have hdel2 : ∀ e ∈ codes, Delivers (rebuildTree codes) e.2 e.1 := hdel
          rw [hroot] at hdel2
          rw [hroot]
          exact decodeLoop_encode codes _ hdel2 stream bits hbits
        have hnumc : padDim h 8 / 8 * (padDim w 8 / 8) * 8 * 8 = stream.length := by
          rw [hstreamlen, padDim_eight, padDim_eight]
          ring
        have hdc : decode_coefficients (bitstring_to_bytes bits).1 table bits.length
            (padDim h 8 / 8 * (padDim w 8 / 8) * 8 * 8) = some stream := by
          unfold decode_coefficients
          rw [hde, Option.some_bind, hbits2, hdec, Option.map_some']
          congr 1
          rw [hnumc]
          exact List.take_length ..
        rw [hdc, Option.some_bind]
        have hstreamlen2 : stream.length = padDim h 8 / 8 * (padDim w 8 / 8) * 64 := by
          rw [hstreamlen, padDim_eight, padDim_eight]
        obtain ⟨blocks2, hblocks2⟩ := decodeBlocks_total stream
          (padDim h 8 / 8 * (padDim w 8 / 8)) hstreamlen2
        rw [hblocks2, Option.map_some']
        refine ⟨_, rfl, rfl, rfl, ?_⟩
        intro i j
        exact ⟨clipCast_nonneg _ _, clipCast_le _ _⟩

/-! ## Claim theorems -/

theorem stratFirst_valid : ValidStrategy stratFirst := by
  constructor
  · intro pool a b rest hs
    match pool, hs with
    | x :: y :: r, hs =>
      unfold stratFirst at hs
      simp only [Option.some.injEq, Prod.mk.injEq] at hs
      obtain ⟨h1, h2, h3⟩ := hs
      rw [h1, h2, h3]
  · intro pool hlen
    match pool with
    | x :: y :: r => simp [stratFirst]

theorem roundHalfEven_intCast (z : ℤ) : roundHalfEven ((z : ℤ) : ℚ) = z := by
  unfold roundHalfEven
  rw [Int.floor_intCast, sub_self, if_pos (by norm_num : (0 : ℚ) < 1 / 2)]

theorem quantizeEntry_zero (q : ℕ) : quantizeEntry 0 q = 0 := by
  unfold quantizeEntry
  rw [zero_div]
  have h0 : ((0 : ℚ)) = ((0 : ℤ) : ℚ) := by norm_num
  rw [h0, roundHalfEven_intCast]
  decide

theorem quant100_eq_one (bd i j : ℕ) :
    create_quantization_matrix 100 bd i j = 1 := by
  unfold create_quantization_matrix qualScale bitScale
  have hscale : (200 : ℚ) - 2 * ((100 : ℕ) : ℚ) = 0 := by norm_num
  rw [if_neg (by omega), hscale, mul_zero, zero_mul, zero_add]
  have hfloor : Int.floor ((50 : ℚ) / 100) = 0 := by
    rw [Int.floor_eq_zero_iff]
    constructor <;> norm_num
  rw [hfloor]
  rfl

/-- **C4** — For every quality in `[1,100]` and bit depth in `[8,16]`
(block size 8), the quantization matrix entry equals
`clip(⌊(base·scale·2^bd/256 + 50)/100⌋, 1, 65535)` with
`scale = 5000/quality` below 50 and `200 − 2·quality` otherwise; at
`quality = 100` the scale is 0 and every entry is clipped up to 1. -/
theorem spec_C4 (quality bd i j : ℕ)
    (hq1 : 1 ≤ quality) (hq2 : quality ≤ 100) (hbd1 : 8 ≤ bd) (hbd2 : bd ≤ 16)
    (hi : i < 8) (hj : j < 8) :
    (create_quantization_matrix quality bd i j : ℤ)
      = npClip 1 65535
          (Int.floor (((baseEntry i j : ℚ) *
            (if quality < 50 then 5000 / (quality : ℚ) else 200 - 2 * (quality : ℚ)) *
            ((2 : ℚ) ^ bd / 256) + 50) / 100)) ∧
    (quality = 100 → create_quantization_matrix quality bd i j = 1) := by
  constructor
  · unfold create_quantization_matrix
    rw [Int.toNat_of_nonneg]
    · rfl
    · unfold npClip
      have h1 : (1 : ℤ) ≤ max 1 (Int.floor (((baseEntry i j : ℚ) * qualScale quality *
          bitScale bd + 50) / 100)) := le_max_left ..
      omega
  · intro hq
    subst hq
    exact quant100_eq_one bd i j

/-- Witness for C4 at `quality = 75`, `bd = 16`, entry `(0, 0)`. -/
theorem spec_C4_witness :
    ((create_quantization_matrix 75 16 0 0 : ℤ)
      = npClip 1 65535
          (Int.floor (((baseEntry 0 0 : ℚ) *
            (if (75 : ℕ) < 50 then 5000 / ((75 : ℕ) : ℚ) else 200 - 2 * ((75 : ℕ) : ℚ)) *
            ((2 : ℚ) ^ 16 / 256) + 50) / 100)) ∧
     ((75 : ℕ) = 100 → create_quantization_matrix 75 16 0 0 = 1)) ∧
    create_quantization_matrix 100 16 3 4 = 1 :=
  ⟨spec_C4 75 16 0 0 (by decide) (by decide) (by decide) (by decide) (by decide)
    (by decide),
   (spec_C4 100 16 3 4 (by decide) (by decide) (by decide) (by decide) (by decide)
    (by decide)).2 rfl⟩

/-- **C5** — For every block size `B ∈ [2,16]`, the zig-zag order
enumerates each of the `B²` positions exactly once, and unflattening the
flattened block restores every entry of any `B × B` matrix. -/
theorem spec_C5 (B : ℕ) (hB1 : 2 ≤ B) (hB2 : B ≤ 16) :
    (zigzag_order B).Nodup ∧
    (∀ p : ℕ × ℕ, p ∈ zigzag_order B ↔ p.1 < B ∧ p.2 < B) ∧
    ∀ M : ℕ → ℕ → ℤ, ∃ g, zigzag_unflatten (zigzag_flatten B M) B = some g ∧
      ∀ i j, i < B → j < B → g i j = M i j :=
  ⟨nodup_zigzag_order B, fun _ => mem_zigzag_order,
   fun M => zigzag_unflatten_flatten B M⟩

/-- Witness for C5 at `B = 8` on the matrix `M i j = 8·i + j`. -/
theorem spec_C5_witness :
    ∃ g, zigzag_unflatten (zigzag_flatten 8 (fun i j => (8 * i + j : ℤ))) 8
        = some g ∧ g 3 5 = 29 := by
  obtain ⟨_, _, h3⟩ := spec_C5 8 (by decide) (by decide)
  obtain ⟨g, hg, hgv⟩ := h3 (fun i j => (8 * i + j : ℤ))
  refine ⟨g, hg, ?_⟩
  rw [hgv 3 5 (by decide) (by decide)]
  norm_num

/-- **C9** — `quantize` reduces the rounded quotient modulo `2^16` into
`[-32768, 32767]`; it equals `round(coeff/Q)` exactly when that quotient
fits in int16, and on the DC coefficient `8 · 65535 = 524280` of a
uniformly bright block at bit depth 16 and quality 100 (where every
quantization-matrix entry is 1) the stored value is `-8`, not `524280`. -/
theorem spec_C9 :
    (∀ (c : ℚ) (q : ℕ),
      quantizeEntry c q % 65536 = roundHalfEven (c / q) % 65536 ∧
      -32768 ≤ quantizeEntry c q ∧ quantizeEntry c q ≤ 32767 ∧
      (quantizeEntry c q = roundHalfEven (c / q) ↔
        -32768 ≤ roundHalfEven (c / q) ∧ roundHalfEven (c / q) ≤ 32767)) ∧
    (∀ i j, i < 8 → j < 8 → create_quantization_matrix 100 16 i j = 1) ∧
    roundHalfEven ((524280 : ℚ) / ((1 : ℕ) : ℚ)) = 524280 ∧
    quantize (fun _ _ => (524280 : ℚ)) (create_quantization_matrix 100 16) 0 0 = -8 := by
  refine ⟨?_, ?_, ?_, ?_⟩
  · intro c q
    unfold quantizeEntry toInt16
    refine ⟨by omega, by omega, by omega, by omega⟩
  · intro i j hi hj
    exact quant100_eq_one 16 i j
  · have h0 : ((524280 : ℚ) / ((1 : ℕ) : ℚ)) = ((524280 : ℤ) : ℚ) := by norm_num
    rw [h0, roundHalfEven_intCast]
  · unfold quantize quantizeEntry
    have h1 : create_quantization_matrix 100 16 0 0 = 1 := quant100_eq_one 16 0 0
    rw [h1]
    show toInt16 (roundHalfEven ((524280 : ℚ) / ((1 : ℕ) : ℚ))) = -8
    have h0 : ((524280 : ℚ) / ((1 : ℕ) : ℚ)) = ((524280 : ℤ) : ℚ) := by norm_num
    rw [h0, roundHalfEven_intCast]
    decide

/-- A concrete (kernel-computable) stand-in for the float DCT stages:
the transform sending every block to the zero matrix. -/
def zeroDCT : (ℕ → ℕ → ℤ) → ℕ → ℕ → ℚ := fun _ _ _ => 0

theorem bitsToBytes_replicate_false (n : ℕ) :
    bitsToBytes (List.replicate (8 * n) false) = List.replicate n 0 := by
  induction n with
  | zero =>
    rw [Nat.mul_zero, List.replicate_zero, List.replicate_zero, bitsToBytes]
  | succ m ih =>
    have h1 : 8 * (m + 1) = 8 * m + 7 + 1 := by omega
    rw [h1, List.replicate_succ, bitsToBytes]
    have h2 : (false :: List.replicate (8 * m + 7) false)
        = List.replicate (8 * m + 7 + 1) false := rfl
    have htake : (List.replicate (8 * m + 7 + 1) false).take 8
        = List.replicate 8 false := by
      rw [List.take_replicate]
      congr 1
      omega
    have hdrop : (List.replicate (8 * m + 7 + 1) false).drop 8
        = List.replicate (8 * m) false := by
      rw [List.drop_replicate]
      congr 1
      try omega
    have h5 : bitsToNat (List.replicate 8 false) = 0 := by decide
    rw [h2, htake, hdrop, ih, h5]
    rfl

/-- **C1** — For every image of shape `h × w` with bit depth in `[8,16]`
and pixels in `[0, 2^bd − 1]`, every quality in `[1,100]` (block size 8),
every heap strategy satisfying the `heapq` contract and every pair of
float DCT/IDCT stages, decoding the frame produced by encoding the image
yields an image of shape exactly `(h, w)` whose every pixel lies in
`[0, 2^bd − 1]` (the padded region is cropped away and values are
clipped). -/
theorem spec_C1 (strat : Strategy) (hstrat : ValidStrategy strat)
    (fdct fidct : (ℕ → ℕ → ℤ) → (ℕ → ℕ → ℚ))
    (h w bd quality : ℕ) (px : ℕ → ℕ → ℤ)
    (hh1 : 1 ≤ h) (hw1 : 1 ≤ w)
    (hbd : 8 ≤ bd ∧ bd ≤ 16) (hq : 1 ≤ quality ∧ quality ≤ 100)
    (hpx : ∀ i j : ℕ, 0 ≤ px i j ∧ px i j ≤ ((2 ^ bd - 1 : ℕ) : ℤ))
    (F : List ℕ) (henc : encode_image strat fdct h w bd quality 8 px = some F) :
    ∃ out, decode_image fidct F = some out ∧ out.height = h ∧ out.width = w ∧
      ∀ i j : ℕ, 0 ≤ out.px i j ∧ out.px i j ≤ ((2 ^ bd - 1 : ℕ) : ℤ) :=
  decode_encode_aux strat hstrat fdct fidct h w bd quality px hh1 hw1 F henc

set_option maxRecDepth 10000 in
/-- Witness for C1: the constant-zero 8×8 image at bit depth 8,
quality 100, with the first-two heap strategy and the zero DCT. -/
theorem spec_C1_witness :
    ∃ F out,
      encode_image stratFirst zeroDCT 8 8 8 100 8 (fun _ _ => 0) = some F ∧
      decode_image zeroDCT F = some out ∧ out.height = 8 ∧ out.width = 8 ∧
      ∀ i j : ℕ, 0 ≤ out.px i j ∧ out.px i j ≤ ((2 ^ 8 - 1 : ℕ) : ℤ) := by
  have hQ : create_quantization_matrix 100 8 = fun _ _ => 1 :=
    funext fun i => funext fun j => quant100_eq_one 8 i j
  have harg : (block_dct_encode zeroDCT (pad_image 8 8 fun _ _ => 0)
      (fun _ _ => 1) (8 + (8 - 8 % 8) % 8) (8 + (8 - 8 % 8) % 8) 8).map
      (zigzag_flatten 8) = [List.replicate 64 (0 : ℤ)] := by
    unfold block_dct_encode
    have hg : blockGrid (8 + (8 - 8 % 8) % 8) (8 + (8 - 8 % 8) % 8) 8 = [(0, 0)] := by
      decide
    rw [hg, List.map_cons, List.map_nil, List.map_cons, List.map_nil]
    congr 1
    unfold zigzag_flatten quantize zeroDCT
    simp only [quantizeEntry_zero]
    decide
  have hcodes : generate_huffman_codes (build_huffman_tree stratFirst
      (counter ([List.replicate 64 (0 : ℤ)]).join)) = [(0, [false])] := by decide
  have hencH : encode_huffman ([List.replicate 64 (0 : ℤ)]).join [(0, [false])]
      = some (List.replicate 64 false) := by decide
  have hser : serialize_huffman_table [((0 : ℤ), [false])]
      = some [0, 1, 0, 0, 1, 0] := by decide
  have hbb : bitsToBytes (List.replicate 64 false) = List.replicate 8 0 := by
    have h := bitsToBytes_replicate_false 8
    norm_num at h
    exact h
  have hbytes : bitstring_to_bytes (List.replicate 64 false)
      = (List.replicate 8 0, 0) := by
    unfold bitstring_to_bytes
    have h0 : (8 - (List.replicate 64 false).length % 8) % 8 = 0 := by decide
    rw [h0, List.replicate_zero, List.append_nil, hbb]
  have hec : encode_coefficients stratFirst [List.replicate 64 (0 : ℤ)]
      = some (List.replicate 8 0, [0, 1, 0, 0, 1, 0], 64) := by
    unfold encode_coefficients
    rw [hcodes, hencH, Option.some_bind, hser, Option.map_some', hbytes,
      List.length_replicate]
  have hqf : quantFlat (fun _ _ => 1) = List.replicate 64 1 := by decide
  obtain ⟨F, hF⟩ : ∃ F, pack_bitstream 8 8 8 8 100 (List.replicate 64 1)
      [0, 1, 0, 0, 1, 0] (List.replicate 8 0) 64 = some F := by
    cases hp : pack_bitstream 8 8 8 8 100 (List.replicate 64 1)
        [0, 1, 0, 0, 1, 0] (List.replicate 8 0) 64 with
    | none => exact absurd hp (by decide)
    | some v => exact ⟨v, rfl⟩
  have henc : encode_image stratFirst zeroDCT 8 8 8 100 8 (fun _ _ => 0) = some F := by
    unfold encode_image
    rw [hQ, harg, hec, Option.some_bind, hqf]
    exact hF
  obtain ⟨out, h1, h2, h3, h4⟩ :=
    spec_C1 stratFirst stratFirst_valid zeroDCT zeroDCT 8 8 8 100 (fun _ _ => 0)
      (by decide) (by decide) ⟨by decide, by decide⟩ ⟨by decide, by decide⟩
      (fun i j => ⟨le_refl 0, by show (0 : ℤ) ≤ ((2 ^ 8 - 1 : ℕ) : ℤ); decide⟩) F henc
  exact ⟨F, out, henc, h1, h2, h3, h4⟩

/-- **C6** — For every code table within the serializer's domain (fewer
than `2^16` symbols, each symbol an int16, every code non-empty and at
most 255 bits), serialization succeeds and deserializing the output
returns exactly the same symbol-to-bitstring table — leading zero bits
restored by the `zfill` left-padding — together with a byte count equal
to the serialized length. -/
theorem spec_C6 (codes : List (ℤ × List Bool))
    (hn : codes.length < 2 ^ 16)
    (hb : ∀ e ∈ codes, -32768 ≤ e.1 ∧ e.1 < 32768 ∧ 1 ≤ e.2.length ∧ e.2.length ≤ 255) :
    ∃ d, serialize_huffman_table codes = some d ∧
      deserialize_huffman_table d = some (codes, d.length) := by
  have hs : serialize_huffman_table codes
      = some (natToBytesBE 2 codes.length ++ codes.flatMap serEntry) := by
    unfold serialize_huffman_table
    rw [if_pos ⟨hn, hb⟩]
  exact ⟨_, hs, deserialize_serialize codes _ hs⟩

/-- Witness for C6 on a two-entry table whose second code has a leading
zero bit (`[false, true]`, Python `"01"`). -/
theorem spec_C6_witness :
    ∃ d, serialize_huffman_table [((0 : ℤ), [true]), (-5, [false, true])] = some d ∧
      deserialize_huffman_table d
        = some ([((0 : ℤ), [true]), (-5, [false, true])], d.length) :=
  spec_C6 [((0 : ℤ), [true]), (-5, [false, true])] (by decide) (by decide)

/-- **C7** — For every non-empty frequency map and every heap strategy
satisfying the `heapq` contract, the built code assigns a non-empty bit
string to exactly the symbols of the map, no codeword is a prefix of
another, and a one-symbol alphabet receives the single-bit code `"0"`. -/
theorem spec_C7 (strat : Strategy) (hstrat : ValidStrategy strat)
    (freq : List (ℤ × ℕ)) (hne : freq ≠ []) :
    ∃ t, build_huffman_tree strat freq = some t ∧
      ((generate_huffman_codes (build_huffman_tree strat freq)).map Prod.fst).Perm
        (freq.map Prod.fst) ∧
      (∀ e ∈ generate_huffman_codes (build_huffman_tree strat freq), e.2 ≠ []) ∧
      (generate_huffman_codes (build_huffman_tree strat freq)).Pairwise
        (fun e1 e2 => ¬ e1.2 <+: e2.2 ∧ ¬ e2.2 <+: e1.2) ∧
      (∀ s : ℤ × ℕ, freq = [s] →
        generate_huffman_codes (build_huffman_tree strat freq) = [(s.1, [false])]) := by
  obtain ⟨t, ht, hp, hperm⟩ := build_huffman_tree_ok strat hstrat freq hne
  refine ⟨t, ht, ?_, ?_, ?_, ?_⟩
  · rw [ht]
    show ((traverseCodes t []).map Prod.fst).Perm _
    rw [traverseCodes_fst t hp]
    exact hperm
  · rw [ht]
    exact traverseCodes_nonempty t hp []
  · rw [ht]
    exact traverseCodes_pairwise t hp []
  · rintro s rfl
    have hb : build_huffman_tree strat [s]
        = some (HTree.node (some s.1) .nil .nil) := rfl
    rw [hb]
    rfl

/-- Witness for C7: a two-symbol alphabet with the first-two heap
strategy, plus the `"0"` code on a one-symbol alphabet. -/
theorem spec_C7_witness :
    (∃ t, build_huffman_tree stratFirst [((3 : ℤ), 2), (7, 1)] = some t ∧
      ((generate_huffman_codes
          (build_huffman_tree stratFirst [((3 : ℤ), 2), (7, 1)])).map Prod.fst).Perm
        ([((3 : ℤ), 2), (7, 1)].map Prod.fst) ∧
      (∀ e ∈ generate_huffman_codes (build_huffman_tree stratFirst [((3 : ℤ), 2), (7, 1)]),
        e.2 ≠ []) ∧
      (generate_huffman_codes
          (build_huffman_tree stratFirst [((3 : ℤ), 2), (7, 1)])).Pairwise
        (fun e1 e2 => ¬ e1.2 <+: e2.2 ∧ ¬ e2.2 <+: e1.2) ∧
      (∀ s : ℤ × ℕ, [((3 : ℤ), 2), (7, 1)] = [s] →
        generate_huffman_codes (build_huffman_tree stratFirst [((3 : ℤ), 2), (7, 1)])
          = [(s.1, [false])])) ∧
    generate_huffman_codes (build_huffman_tree stratFirst [((5 : ℤ), 9)])
      = [((5 : ℤ), [false])] := by
  refine ⟨spec_C7 stratFirst stratFirst_valid [((3 : ℤ), 2), (7, 1)] (by decide), ?_⟩
  obtain ⟨t, ht, h1, h2, h3, h4⟩ :=
    spec_C7 stratFirst stratFirst_valid [((5 : ℤ), 9)] (by decide)
  exact h4 (5, 9) rfl

/-- A concrete 27-byte frame: `1 × 1` image, bit depth 8, block size 1,
quality 50, quantization matrix `[1]`, empty Huffman table, 1 payload
byte, `num_bits = 1`. -/
def C2frame : List ℕ :=
  [77, 69, 68, 67, 1, 0, 1, 0, 1, 8, 1, 50, 0, 1, 0, 1, 0, 0,
   0, 0, 0, 1, 0, 0, 0, 1, 9]

/-- **C2 (amended)** — For a packed frame, truncation strictly inside
the 24-byte header, the quantization matrix or the Huffman table is
rejected, but truncation inside the payload region is NOT: the parse
succeeds and silently returns the truncated payload. -/
theorem spec_C2 (width height bit_depth block_size quality : ℕ)
    (quant table payload : List ℕ) (num_bits : ℕ) (F : List ℕ)
    (hpack : pack_bitstream width height bit_depth block_size quality
      quant table payload num_bits = some F)
    (hsq : quant.length = block_size * block_size)
    (k : ℕ) (hk : k < F.length) :
    (k < 24 + 2 * quant.length + table.length →
      unpack_bitstream (F.take k) = none) ∧
    (24 + 2 * quant.length + table.length ≤ k →
      unpack_bitstream (F.take k)
        = some ⟨width, height, bit_depth, block_size, quality, quant, table,
            payload.take (k - (24 + 2 * quant.length + table.length)), num_bits⟩) := by
  obtain ⟨hFeq, hw, hh, hbd, hbs, hq, hql, hqv, htl, hnb, hpl⟩ :=
    pack_eq_frameCore width height bit_depth block_size quality quant table
      payload num_bits F hpack
  subst hFeq
  have hclen := length_frameCore width height bit_depth block_size quality quant
    table num_bits payload.length
  rw [List.length_append, hclen] at hk
  constructor
  · intro hksmall
    have htk : (frameCore width height bit_depth block_size quality quant table
        num_bits payload.length ++ payload).take k
        = (frameCore width height bit_depth block_size quality quant table
            num_bits payload.length).take k := by
      rw [List.take_append_eq_append_take]
      have h0 : k - (frameCore width height bit_depth block_size quality quant table
          num_bits payload.length).length = 0 := by omega
      rw [h0, List.take_zero, List.append_nil]
    rw [htk]
    exact unpack_frameCore_truncated width height bit_depth block_size quality
      quant table num_bits payload.length hw hh hbd hbs hq hql hqv htl hnb hpl
      hsq k hksmall
  · intro hkbig
    have htk : (frameCore width height bit_depth block_size quality quant table
        num_bits payload.length ++ payload).take k
        = frameCore width height bit_depth block_size quality quant table
            num_bits payload.length ++
          payload.take (k - (24 + 2 * quant.length + table.length)) := by
      rw [List.take_append_eq_append_take, List.take_of_length_le (by omega), hclen]
    rw [htk, unpack_frameCore_append width height bit_depth block_size quality quant
      table num_bits payload.length _ hw hh hbd hbs hq hql hqv htl hnb hpl hsq]
    have hsub : (payload.take (k - (24 + 2 * quant.length + table.length))).take
        payload.length = payload.take (k - (24 + 2 * quant.length + table.length)) := by
      rw [List.take_take]
      congr 1
      omega
    rw [hsub]

/-- Counterexample for C2 as stated: `C2frame` parses, and its strict
26-byte prefix (payload truncated away) also parses — with an empty
payload — instead of being rejected. -/
theorem spec_C2_counterexample :
    unpack_bitstream C2frame = some ⟨1, 1, 8, 1, 50, [1], [], [9], 1⟩ ∧
    C2frame.take 26 ≠ C2frame ∧
    unpack_bitstream (C2frame.take 26) = some ⟨1, 1, 8, 1, 50, [1], [], [], 1⟩ := by
  decide

/-- Witness for the amended C2 on `C2frame`: truncating at byte 10
(inside the header) is rejected, truncating at byte 26 (start of the
payload) is accepted with an empty payload. -/
theorem spec_C2_witness :
    unpack_bitstream (C2frame.take 10) = none ∧
    unpack_bitstream (C2frame.take 26) = some ⟨1, 1, 8, 1, 50, [1], [], [], 1⟩ := by
  have h1 := spec_C2 1 1 8 1 50 [1] [] [9] 1 C2frame (by decide) (by decide)
    10 (by decide)
  have h2 := spec_C2 1 1 8 1 50 [1] [] [9] 1 C2frame (by decide) (by decide)
    26 (by decide)
  exact ⟨h1.1 (by decide), h2.2 (by decide)⟩

/-- **C3 (amended)** — Whenever `decode_coefficients` succeeds it
returns the Huffman-decoded symbol sequence truncated to `num_coeffs`
(`coeffs[:num_coeffs]`): the result has `min num_coeffs n` symbols,
where `n` is the full decoded count — exhausting the bit budget before
`num_coeffs` symbols does NOT raise an error. -/
theorem spec_C3 (encoded huffTable : List ℕ) (numBits numCoeffs : ℕ)
    (l : List ℤ)
    (h : decode_coefficients encoded huffTable numBits numCoeffs = some l) :
    ∃ ct full, deserialize_huffman_table huffTable = some ct ∧
      decode_huffman (bytes_to_bitstring encoded numBits) (rebuildTree ct.1)
        = some full ∧
      l = full.take numCoeffs ∧ l.length = min numCoeffs full.length := by
  unfold decode_coefficients at h
  cases hd : deserialize_huffman_table huffTable with
  | none =>
    rw [hd] at h
    exact absurd h (by simp)
  | some ct =>
    rw [hd, Option.some_bind] at h
    cases hdec : decode_huffman (bytes_to_bitstring encoded numBits)
        (rebuildTree ct.1) with
    | none =>
      rw [hdec] at h
      exact absurd h (by simp)
    | some full =>
      rw [hdec, Option.map_some'] at h
      have hl : full.take numCoeffs = l := Option.some.inj h
      refine ⟨ct, full, rfl, hdec, hl.symm, ?_⟩
      rw [← hl, List.length_take]

/-- Counterexample for C3 as stated: 2 bits of budget, 5 requested
coefficients — decoding succeeds with only 2 symbols instead of
failing. -/
theorem spec_C3_counterexample :
    decode_coefficients [0] [0, 1, 0, 7, 1, 0] 2 5 = some [(7 : ℤ), 7] ∧
    ([(7 : ℤ), 7]).length < 5 := by decide

/-- Witness for the amended C3 on the same input: the result is the
full decoded sequence `[7, 7]` trimmed by `take 5`. -/
theorem spec_C3_witness :
    ∃ ct full, deserialize_huffman_table [0, 1, 0, 7, 1, 0] = some ct ∧
      decode_huffman (bytes_to_bitstring [0] 2) (rebuildTree ct.1) = some full ∧
      [(7 : ℤ), 7] = full.take 5 ∧ ([(7 : ℤ), 7]).length = min 5 full.length :=
  spec_C3 [0] [0, 1, 0, 7, 1, 0] 2 5 [7, 7] (by decide)

/-- **C10 (amended)** — For every frame produced by `pack_bitstream`
(whose declared payload length matches the actual payload), appending
arbitrary extra bytes does not change the parse: the declared length
fields delimit everything read.  The claim fails for frames that
themselves parse only by payload truncation, where the appended bytes
are swallowed into the payload. -/
theorem spec_C10 (width height bit_depth block_size quality : ℕ)
    (quant table payload : List ℕ) (num_bits : ℕ) (F G : List ℕ)
    (hpack : pack_bitstream width height bit_depth block_size quality
      quant table payload num_bits = some F)
    (hsq : quant.length = block_size * block_size) :
    unpack_bitstream (F ++ G) = unpack_bitstream F ∧
    (unpack_bitstream F).isSome = true := by
  obtain ⟨hFeq, hw, hh, hbd, hbs, hq, hql, hqv, htl, hnb, hpl⟩ :=
    pack_eq_frameCore width height bit_depth block_size quality quant table
      payload num_bits F hpack
  subst hFeq
  rw [List.append_assoc,
    unpack_frameCore_append width height bit_depth block_size quality quant
      table num_bits payload.length (payload ++ G) hw hh hbd hbs hq hql hqv htl
      hnb hpl hsq,
    unpack_frameCore_append width height bit_depth block_size quality quant
      table num_bits payload.length payload hw hh hbd hbs hq hql hqv htl
      hnb hpl hsq,
    List.take_left, List.take_length]
  exact ⟨rfl, rfl⟩

/-- Counterexample for C10 as stated: the truncated frame
`C2frame.take 26` parses successfully, but appending one byte changes
the parse (the byte lands in the payload). -/
theorem spec_C10_counterexample :
    (unpack_bitstream (C2frame.take 26)).isSome = true ∧
    unpack_bitstream (C2frame.take 26 ++ [5])
      ≠ unpack_bitstream (C2frame.take 26) := by decide

/-- Witness for the amended C10: appending a stray byte to the packed
frame `C2frame` leaves the parse unchanged. -/
theorem spec_C10_witness :
    unpack_bitstream (C2frame ++ [5]) = unpack_bitstream C2frame ∧
    (unpack_bitstream C2frame).isSome = true :=
  spec_C10 1 1 8 1 50 [1] [] [9] 1 C2frame [5] (by decide) (by decide)

end Codec
